import Mathlib

/-!
Verification development for the fixed-point math kernel of the Ekubo EVM SDK:
tick-to-sqrt-ratio conversion (`src/math/tick.rs`), the Q64.64 base-2
exponential (`src/math/twamm/exp2.rs`), the TWAMM price-evolution function
(`src/math/twamm/sqrt_ratio.rs`), and the oracle-pool quote wrapper
(`src/quoting/oracle_pool.rs`).

The `U256` wide integer is embedded as `Nat`; its shifts truncate modulo
`2^256` (the Rust `uint` shift operators are wrapping), while additions and
multiplications that could overflow, divisions that could hit a zero divisor,
and `unwrap`/`assert!` calls are embedded as `Option`-returning operations
(`none` models a panic/abort).
-/

namespace EkuboModel

/-- One step of the repeated `ratio = (ratio * mask) >> 128` pattern used by
both `to_sqrt_ratio` and `exp2`. -/
def mulShift (r m : Nat) : Nat := r * m / 2 ^ 128

/-- Folding `mulShift` over a list of mask constants. -/
def msFold (ms : List Nat) (r : Nat) : Nat := ms.foldl mulShift r

theorem msFold_nil (r : Nat) : msFold [] r = r := rfl

theorem msFold_cons (m : Nat) (ms : List Nat) (r : Nat) :
    msFold (m :: ms) r = msFold ms (mulShift r m) := rfl

theorem div_lt_succ_mul {a b : Nat} (hb : 0 < b) : a < (a / b + 1) * b := by
  have h := Nat.div_add_mod a b
  have hm : a % b < b := Nat.mod_lt _ hb
  calc a = b * (a / b) + a % b := h.symm
    _ < b * (a / b) + b := by omega
    _ = (a / b + 1) * b := by ring

theorem prod_le_pow_of_forall_le {ms : List Nat} {C : Nat}
    (h : ∀ m ∈ ms, m ≤ C) : ms.prod ≤ C ^ ms.length := by
  induction ms with
  | nil => simp
  | cons m rest ih =>
    have h1 : m ≤ C := h m (List.mem_cons_self _ _)
    have h2 : rest.prod ≤ C ^ rest.length := ih fun x hx => h x (List.mem_cons_of_mem _ hx)
    calc (m :: rest).prod = m * rest.prod := by simp
      _ ≤ C * C ^ rest.length := Nat.mul_le_mul h1 h2
      _ = C ^ (m :: rest).length := by rw [List.length_cons, pow_succ, mul_comm]

theorem pow_le_prod_of_forall_le {ms : List Nat} {C : Nat}
    (h : ∀ m ∈ ms, C ≤ m) : C ^ ms.length ≤ ms.prod := by
  induction ms with
  | nil => simp
  | cons m rest ih =>
    have h1 : C ≤ m := h m (List.mem_cons_self _ _)
    have h2 : C ^ rest.length ≤ rest.prod := ih fun x hx => h x (List.mem_cons_of_mem _ hx)
    calc C ^ (m :: rest).length = C * C ^ rest.length := by
          rw [List.length_cons, pow_succ, mul_comm]
      _ ≤ m * rest.prod := Nat.mul_le_mul h1 h2
      _ = (m :: rest).prod := by simp

/-- Upper bound: each `>> 128` only rounds down, so the fold is bounded by the
exact scaled product. -/
theorem msFold_upper (ms : List Nat) : ∀ r : Nat,
    msFold ms r * 2 ^ (128 * ms.length) ≤ r * ms.prod := by
  induction ms with
  | nil => intro r; simp [msFold]
  | cons m rest ih =>
    intro r
    have hq : mulShift r m * 2 ^ 128 ≤ r * m := Nat.div_mul_le_self _ _
    calc msFold (m :: rest) r * 2 ^ (128 * (m :: rest).length)
        = msFold rest (mulShift r m) * (2 ^ (128 * rest.length) * 2 ^ 128) := by
          rw [msFold_cons, List.length_cons]; ring_nf
      _ = msFold rest (mulShift r m) * 2 ^ (128 * rest.length) * 2 ^ 128 := by ring
      _ ≤ mulShift r m * rest.prod * 2 ^ 128 :=
          Nat.mul_le_mul_right _ (ih (mulShift r m))
      _ = mulShift r m * 2 ^ 128 * rest.prod := by ring
      _ ≤ r * m * rest.prod := Nat.mul_le_mul_right _ hq
      _ = r * (m :: rest).prod := by simp; ring

/-- Lower bound for mask lists whose entries are at most `2^128` (the tick
masks): each step loses less than one unit and the losses are never
amplified. -/
theorem msFold_lower_small (ms : List Nat) (hm : ∀ m ∈ ms, m ≤ 2 ^ 128) :
    ∀ r : Nat, r * ms.prod ≤ (msFold ms r + ms.length) * 2 ^ (128 * ms.length) := by
  induction ms with
  | nil => intro r; simp [msFold]
  | cons m rest ih =>
    intro r
    have hrest : ∀ x ∈ rest, x ≤ 2 ^ 128 := fun x hx => hm x (List.mem_cons_of_mem _ hx)
    have hP : rest.prod ≤ 2 ^ (128 * rest.length) := by
      calc rest.prod ≤ (2 ^ 128) ^ rest.length := prod_le_pow_of_forall_le hrest
        _ = 2 ^ (128 * rest.length) := by rw [← pow_mul]
    have hq : r * m ≤ (mulShift r m + 1) * 2 ^ 128 :=
      Nat.le_of_lt (div_lt_succ_mul (by positivity))
    calc r * (m :: rest).prod = r * m * rest.prod := by simp; ring
      _ ≤ (mulShift r m + 1) * 2 ^ 128 * rest.prod := Nat.mul_le_mul_right _ hq
      _ = mulShift r m * rest.prod * 2 ^ 128 + rest.prod * 2 ^ 128 := by ring
      _ ≤ (msFold rest (mulShift r m) + rest.length) * 2 ^ (128 * rest.length) * 2 ^ 128
            + 2 ^ (128 * rest.length) * 2 ^ 128 := by
          have h1 : mulShift r m * rest.prod ≤
              (msFold rest (mulShift r m) + rest.length) * 2 ^ (128 * rest.length) :=
            ih hrest (mulShift r m)
          exact Nat.add_le_add (Nat.mul_le_mul_right _ h1) (Nat.mul_le_mul_right _ hP)
      _ = (msFold (m :: rest) r + (m :: rest).length) * 2 ^ (128 * (m :: rest).length) := by
          rw [msFold_cons, List.length_cons]; ring_nf

/-- Lower bound for mask lists whose suffixes have product at most
`2 * 2^(128*length)` (the exp2 masks): each step loses less than one unit and
the subsequent amplification is bounded by a factor of two. -/
theorem msFold_lower_big (ms : List Nat)
    (hs : ∀ s : List Nat, s.IsSuffix ms → s.prod ≤ 2 * 2 ^ (128 * s.length)) :
    ∀ r : Nat, r * ms.prod ≤ (msFold ms r + 2 * ms.length) * 2 ^ (128 * ms.length) := by
  induction ms with
  | nil => intro r; simp [msFold]
  | cons m rest ih =>
    intro r
    have hrest : ∀ s : List Nat, s.IsSuffix rest → s.prod ≤ 2 * 2 ^ (128 * s.length) :=
      fun s h => hs s (h.trans (List.suffix_cons m rest))
    have hP : rest.prod ≤ 2 * 2 ^ (128 * rest.length) :=
      hrest rest List.suffix_rfl
    have hq : r * m ≤ (mulShift r m + 1) * 2 ^ 128 :=
      Nat.le_of_lt (div_lt_succ_mul (by positivity))
    calc r * (m :: rest).prod = r * m * rest.prod := by simp; ring
      _ ≤ (mulShift r m + 1) * 2 ^ 128 * rest.prod := Nat.mul_le_mul_right _ hq
      _ = mulShift r m * rest.prod * 2 ^ 128 + rest.prod * 2 ^ 128 := by ring
      _ ≤ (msFold rest (mulShift r m) + 2 * rest.length) * 2 ^ (128 * rest.length) * 2 ^ 128
            + 2 * 2 ^ (128 * rest.length) * 2 ^ 128 := by
          have h1 : mulShift r m * rest.prod ≤
              (msFold rest (mulShift r m) + 2 * rest.length) * 2 ^ (128 * rest.length) :=
            ih hrest (mulShift r m)
          exact Nat.add_le_add (Nat.mul_le_mul_right _ h1) (Nat.mul_le_mul_right _ hP)
      _ = (msFold (m :: rest) r + 2 * (m :: rest).length) * 2 ^ (128 * (m :: rest).length) := by
          rw [msFold_cons, List.length_cons]; ring_nf

theorem msFold_le_self (ms : List Nat) (hm : ∀ m ∈ ms, m ≤ 2 ^ 128) :
    ∀ r : Nat, msFold ms r ≤ r := by
  induction ms with
  | nil => intro r; simp [msFold]
  | cons m rest ih =>
    intro r
    have h1 : mulShift r m ≤ r := by
      have : r * m ≤ r * 2 ^ 128 := Nat.mul_le_mul_left _ (hm m (List.mem_cons_self _ _))
      calc mulShift r m = r * m / 2 ^ 128 := rfl
        _ ≤ r * 2 ^ 128 / 2 ^ 128 := Nat.div_le_div_right this
        _ = r := Nat.mul_div_cancel _ (by positivity)
    calc msFold (m :: rest) r = msFold rest (mulShift r m) := rfl
      _ ≤ mulShift r m := ih (fun x hx => hm x (List.mem_cons_of_mem _ hx)) _
      _ ≤ r := h1

theorem msFold_ge_self (ms : List Nat) (hm : ∀ m ∈ ms, 2 ^ 128 ≤ m) :
    ∀ r : Nat, r ≤ msFold ms r := by
  induction ms with
  | nil => intro r; simp [msFold]
  | cons m rest ih =>
    intro r
    have h1 : r ≤ mulShift r m := by
      have : r * 2 ^ 128 ≤ r * m := Nat.mul_le_mul_left _ (hm m (List.mem_cons_self _ _))
      calc r = r * 2 ^ 128 / 2 ^ 128 := (Nat.mul_div_cancel _ (by positivity)).symm
        _ ≤ r * m / 2 ^ 128 := Nat.div_le_div_right this
    calc r ≤ mulShift r m := h1
      _ ≤ msFold rest (mulShift r m) := ih (fun x hx => hm x (List.mem_cons_of_mem _ hx)) _
      _ = msFold (m :: rest) r := rfl

theorem sublist_prod_mul_le {s ms : List Nat} {C : Nat} (hsub : s.Sublist ms)
    (hm : ∀ m ∈ ms, m ≤ C) :
    ms.prod ≤ s.prod * C ^ (ms.length - s.length) := by
  induction hsub with
  | slnil => simp
  | cons m hsub ih =>
    rename_i s1 ms1
    have hlen := hsub.length_le
    have hm1 : ∀ x ∈ ms1, x ≤ C := fun x hx => hm x (List.mem_cons_of_mem _ hx)
    calc (m :: ms1).prod = m * ms1.prod := by simp
      _ ≤ C * (s1.prod * C ^ (ms1.length - s1.length)) :=
          Nat.mul_le_mul (hm m (List.mem_cons_self _ _)) (ih hm1)
      _ = s1.prod * (C ^ (ms1.length - s1.length) * C) := by ring
      _ = s1.prod * C ^ ((m :: ms1).length - s1.length) := by
          rw [← pow_succ, List.length_cons]
          have he : ms1.length - s1.length + 1 = ms1.length + 1 - s1.length := by omega
          rw [he]
  | cons₂ m hsub ih =>
    rename_i s1 ms1
    have hm1 : ∀ x ∈ ms1, x ≤ C := fun x hx => hm x (List.mem_cons_of_mem _ hx)
    calc (m :: ms1).prod = m * ms1.prod := by simp
      _ ≤ m * (s1.prod * C ^ (ms1.length - s1.length)) :=
          Nat.mul_le_mul_left _ (ih hm1)
      _ = (m :: s1).prod * C ^ ((m :: ms1).length - (m :: s1).length) := by
          simp [List.length_cons]; ring

theorem sublist_mul_pow_le_prod {s ms : List Nat} {C : Nat} (hsub : s.Sublist ms)
    (hm : ∀ m ∈ ms, C ≤ m) :
    s.prod * C ^ (ms.length - s.length) ≤ ms.prod := by
  induction hsub with
  | slnil => simp
  | cons m hsub ih =>
    rename_i s1 ms1
    have hlen := hsub.length_le
    have hm1 : ∀ x ∈ ms1, C ≤ x := fun x hx => hm x (List.mem_cons_of_mem _ hx)
    calc s1.prod * C ^ ((m :: ms1).length - s1.length)
        = s1.prod * (C ^ (ms1.length - s1.length) * C) := by
          rw [← pow_succ, List.length_cons]
          have he : ms1.length - s1.length + 1 = ms1.length + 1 - s1.length := by omega
          rw [he]
      _ = C * (s1.prod * C ^ (ms1.length - s1.length)) := by ring
      _ ≤ m * ms1.prod := Nat.mul_le_mul (hm m (List.mem_cons_self _ _)) (ih hm1)
      _ = (m :: ms1).prod := by simp
  | cons₂ m hsub ih =>
    rename_i s1 ms1
    have hm1 : ∀ x ∈ ms1, C ≤ x := fun x hx => hm x (List.mem_cons_of_mem _ hx)
    calc (m :: s1).prod * C ^ ((m :: ms1).length - (m :: s1).length)
        = m * (s1.prod * C ^ (ms1.length - s1.length)) := by
          simp [List.length_cons]; ring
      _ ≤ m * ms1.prod := Nat.mul_le_mul_left _ (ih hm1)
      _ = (m :: ms1).prod := by simp

/-- A fold with a per-index bit test equals `msFold` over the selected masks. -/
theorem foldl_ite_eq_msFold (p : Nat → Bool) (g : Nat → Nat) :
    ∀ (l : List Nat) (r : Nat),
      l.foldl (fun r i => if p i then mulShift r (g i) else r) r
        = msFold (l.filterMap fun i => if p i then some (g i) else none) r := by
  intro l
  induction l with
  | nil => intro r; simp [msFold]
  | cons i rest ih =>
    intro r
    by_cases h : p i
    · simp [h, ih, msFold]
    · simp [h, ih]

theorem filterMap_ite_sublist (p : Nat → Bool) (g : Nat → Nat) (l : List Nat) :
    (l.filterMap fun i => if p i then some (g i) else none).Sublist (l.map g) := by
  induction l with
  | nil => simp
  | cons i rest ih =>
    by_cases h : p i
    · simpa [h] using ih.cons₂ (g i)
    · simpa [h] using ih.cons (g i)

theorem filterMap_ite_true {p : Nat → Bool} {g : Nat → Nat} {l : List Nat}
    (h : ∀ i ∈ l, p i = true) :
    (l.filterMap fun i => if p i then some (g i) else none) = l.map g := by
  induction l with
  | nil => simp
  | cons i rest ih =>
    have hi : p i = true := h i (List.mem_cons_self _ _)
    have hr := ih fun x hx => h x (List.mem_cons_of_mem _ hx)
    simp [hi, hr]

theorem filterMap_ite_false {p : Nat → Bool} {g : Nat → Nat} {l : List Nat}
    (h : ∀ i ∈ l, p i = false) :
    (l.filterMap fun i => if p i then some (g i) else none) = ([] : List Nat) := by
  induction l with
  | nil => simp
  | cons i rest ih =>
    have hi : p i = false := h i (List.mem_cons_self _ _)
    have hr := ih fun x hx => h x (List.mem_cons_of_mem _ hx)
    simp [hi, hr]

theorem mul_sub_one_div {c A : Nat} (hc : 0 < c) (hA : 0 < A) :
    (c * A - 1) / c = A - 1 := by
  obtain ⟨B, rfl⟩ : ∃ B, A = B + 1 := ⟨A - 1, by omega⟩
  have h1 : c * (B + 1) - 1 = (c - 1) + c * B := by
    have : c * (B + 1) = c * B + c := by ring
    omega
  rw [h1, Nat.add_mul_div_left _ _ hc, Nat.div_eq_of_lt (by omega)]
  omega

theorem sub_one_div_of_mod_ne {m c : Nat} (hc : 0 < c) (hm : m % c ≠ 0) :
    (m - 1) / c = m / c := by
  have h := Nat.div_add_mod m c
  have h2 : m % c < c := Nat.mod_lt _ hc
  have h3 : m - 1 = (m % c - 1) + c * (m / c) := by omega
  rw [h3, Nat.add_mul_div_left _ _ hc, Nat.div_eq_of_lt (by omega)]
  omega

/-- Bits of `q * 2^(j+1) + (2^j - 1)` below position `j` are set. -/
theorem testBit_trailing_ones_lt {q j i : Nat} (hij : i < j) :
    (q * 2 ^ (j + 1) + (2 ^ j - 1)).testBit i = true := by
  set n := q * 2 ^ (j + 1) + (2 ^ j - 1) with hn
  have hd : 0 < j - i := by omega
  have hpow : (2 : Nat) ^ j = 2 ^ i * 2 ^ (j - i) := by
    rw [← pow_add]
    congr 1
    omega
  have hpow1 : (2 : Nat) ^ (j + 1) = 2 ^ i * (2 * 2 ^ (j - i)) := by
    rw [pow_succ, hpow]; ring
  have hA : n = 2 ^ i * (2 * 2 ^ (j - i) * q + 2 ^ (j - i)) - 1 := by
    have e1 : 2 ^ i * (2 * 2 ^ (j - i) * q + 2 ^ (j - i)) =
        q * 2 ^ (j + 1) + 2 ^ j := by rw [hpow1, hpow]; ring
    have e2 : (1 : Nat) ≤ 2 ^ j := Nat.one_le_two_pow
    omega
  have hdiv : n / 2 ^ i = 2 * 2 ^ (j - i) * q + 2 ^ (j - i) - 1 := by
    rw [hA]
    exact mul_sub_one_div (by positivity) (by positivity)
  rw [Nat.testBit_to_div_mod, hdiv]
  obtain ⟨a, ha⟩ : ∃ a, 2 ^ (j - i) = 2 * a := ⟨2 ^ (j - i - 1), by
    rw [← pow_succ']
    congr 1
    omega⟩
  have ha1 : 1 ≤ a := by
    have : (1 : Nat) ≤ 2 ^ (j - i) := Nat.one_le_two_pow
    omega
  rw [ha]
  simp only [decide_eq_true_eq]
  have hlin : 2 * (2 * a) * q + 2 * a - 1 = 4 * (a * q) + 2 * a - 1 := by
    have : 2 * (2 * a) * q = 4 * (a * q) := by ring
    omega
  rw [hlin]
  generalize a * q = Q
  omega

/-- Bit `j` of `q * 2^(j+1) + (2^j - 1)` is clear. -/
theorem testBit_trailing_ones_eq {q j : Nat} :
    (q * 2 ^ (j + 1) + (2 ^ j - 1)).testBit j = false := by
  set n := q * 2 ^ (j + 1) + (2 ^ j - 1) with hn
  have hA : n = 2 ^ j * (2 * q + 1) - 1 := by
    have e1 : 2 ^ j * (2 * q + 1) = q * 2 ^ (j + 1) + 2 ^ j := by
      rw [pow_succ]; ring
    have e2 : (1 : Nat) ≤ 2 ^ j := Nat.one_le_two_pow
    omega
  have hdiv : n / 2 ^ j = 2 * q + 1 - 1 := by
    rw [hA]
    exact mul_sub_one_div (by positivity) (by omega)
  rw [Nat.testBit_to_div_mod, hdiv]
  simp only [decide_eq_false_iff_not]
  omega

/-- Bits of `q * 2^(j+1) + 2^j` below position `j` are clear. -/
theorem testBit_incr_lt {q j i : Nat} (hij : i < j) :
    (q * 2 ^ (j + 1) + 2 ^ j).testBit i = false := by
  have hpow : (2 : Nat) ^ j = 2 ^ i * 2 ^ (j - i) := by
    rw [← pow_add]
    congr 1
    omega
  have hpow1 : (2 : Nat) ^ (j + 1) = 2 ^ i * (2 * 2 ^ (j - i)) := by
    rw [pow_succ, hpow]; ring
  have hA : q * 2 ^ (j + 1) + 2 ^ j = 2 ^ i * (2 * 2 ^ (j - i) * q + 2 ^ (j - i)) := by
    rw [hpow1, hpow]; ring
  have hdiv : (q * 2 ^ (j + 1) + 2 ^ j) / 2 ^ i =
      2 * 2 ^ (j - i) * q + 2 ^ (j - i) := by
    rw [hA, Nat.mul_div_cancel_left _ (by positivity)]
  rw [Nat.testBit_to_div_mod, hdiv]
  obtain ⟨a, ha⟩ : ∃ a, 2 ^ (j - i) = 2 * a := ⟨2 ^ (j - i - 1), by
    rw [← pow_succ']
    congr 1
    omega⟩
  rw [ha]
  simp only [decide_eq_false_iff_not]
  have hlin : 2 * (2 * a) * q + 2 * a = 4 * (a * q) + 2 * a := by ring
  rw [hlin]
  generalize a * q = Q
  omega

/-- Bit `j` of `q * 2^(j+1) + 2^j` is set. -/
theorem testBit_incr_eq {q j : Nat} :
    (q * 2 ^ (j + 1) + 2 ^ j).testBit j = true := by
  have hA : q * 2 ^ (j + 1) + 2 ^ j = 2 ^ j * (2 * q + 1) := by
    rw [pow_succ]; ring
  have hdiv : (q * 2 ^ (j + 1) + 2 ^ j) / 2 ^ j = 2 * q + 1 := by
    rw [hA, Nat.mul_div_cancel_left _ (by positivity)]
  rw [Nat.testBit_to_div_mod, hdiv]
  simp only [decide_eq_true_eq]
  omega

/-- Bits strictly above `j` agree between `q * 2^(j+1) + (2^j - 1)` and its
successor `q * 2^(j+1) + 2^j`. -/
theorem testBit_trailing_ones_gt {q j i : Nat} (hij : j < i) :
    (q * 2 ^ (j + 1) + (2 ^ j - 1)).testBit i =
      (q * 2 ^ (j + 1) + 2 ^ j).testBit i := by
  set m := q * 2 ^ (j + 1) + 2 ^ j with hm
  have hone : (1 : Nat) ≤ 2 ^ j := Nat.one_le_two_pow
  have hsub : q * 2 ^ (j + 1) + (2 ^ j - 1) = m - 1 := by omega
  have hmod : m % 2 ^ i ≠ 0 := by
    intro h0
    have hdvd : 2 ^ i ∣ m := Nat.dvd_of_mod_eq_zero h0
    have hA : m = 2 ^ j * (2 * q + 1) := by rw [hm, pow_succ]; ring
    have hpi : (2 : Nat) ^ i = 2 ^ j * 2 ^ (i - j) := by
      rw [← pow_add]
      congr 1
      omega
    rw [hA, hpi] at hdvd
    have hdvd2 : 2 ^ (i - j) ∣ 2 * q + 1 :=
      (mul_dvd_mul_iff_left (a := (2 : Nat) ^ j) (by positivity)).mp hdvd
    have h2 : (2 : Nat) ∣ 2 ^ (i - j) := dvd_pow_self 2 (by omega)
    have : (2 : Nat) ∣ 2 * q + 1 := h2.trans hdvd2
    omega
  have hdiv : (m - 1) / 2 ^ i = m / 2 ^ i :=
    sub_one_div_of_mod_ne (by positivity) hmod
  rw [hsub, Nat.testBit_to_div_mod, Nat.testBit_to_div_mod, hdiv]

/-- Decomposition of `n` by its trailing block of one bits: every `n` can be
written as `q * 2^(j+1) + (2^j - 1)` with `2^j ∣ n + 1`. -/
theorem trailing_ones_decomp (n : Nat) :
    ∃ j q, n = q * 2 ^ (j + 1) + (2 ^ j - 1) ∧ 2 ^ j ≤ n + 1 := by
  set j := (n + 1).factorization 2 with hj
  have hd : 2 ^ j ∣ (n + 1) := Nat.ordProj_dvd _ _
  have hodd : ¬(2 ∣ (n + 1) / 2 ^ j) := Nat.not_dvd_ordCompl Nat.prime_two (by omega)
  obtain ⟨m, hm⟩ := hd
  have hm2 : (n + 1) / 2 ^ j = m := by
    rw [hm, Nat.mul_div_cancel_left _ (by positivity)]
  rw [hm2] at hodd
  obtain ⟨q, hq⟩ : ∃ q, m = 2 * q + 1 := ⟨m / 2, by omega⟩
  rw [hq] at hm
  refine ⟨j, q, ?_, ?_⟩
  · have e1 : 2 ^ j * (2 * q + 1) = q * 2 ^ (j + 1) + 2 ^ j := by
      rw [pow_succ]; ring
    have e2 : (1 : Nat) ≤ 2 ^ j := Nat.one_le_two_pow
    omega
  · exact Nat.le_of_dvd (by omega) ⟨2 * q + 1, hm⟩

/-- Effect of adding one to a number ending in a block of `j` one bits, on the
list of masks selected by its bits: the `j` low masks are dropped and the mask
at position `j` is picked up, while the selection above `j` is unchanged. -/
theorem applied_decomp (g : Nat → Nat) (L j q : Nat) (hjL : j < L) :
    ∃ H : List Nat,
      ((List.range L).filterMap fun i =>
          if (q * 2 ^ (j + 1) + (2 ^ j - 1)).testBit i then some (g i) else none)
        = (List.range j).map g ++ H ∧
      ((List.range L).filterMap fun i =>
          if (q * 2 ^ (j + 1) + 2 ^ j).testBit i then some (g i) else none)
        = g j :: H := by
  have hsplit : List.range L
      = List.range (j + 1) ++ (List.range (L - (j + 1))).map fun x => (j + 1) + x := by
    conv_lhs => rw [show L = (j + 1) + (L - (j + 1)) by omega]
    rw [List.range_add]
  refine ⟨((List.range (L - (j + 1))).map fun x => (j + 1) + x).filterMap
      (fun i => if (q * 2 ^ (j + 1) + (2 ^ j - 1)).testBit i then some (g i) else none),
    ?_, ?_⟩
  · rw [hsplit, List.filterMap_append]
    have h1 : (List.range j).filterMap
        (fun i => if (q * 2 ^ (j + 1) + (2 ^ j - 1)).testBit i then some (g i) else none)
        = (List.range j).map g :=
      filterMap_ite_true fun i hi => testBit_trailing_ones_lt (List.mem_range.mp hi)
    rw [List.range_succ, List.filterMap_append, h1]
    simp [testBit_trailing_ones_eq]
  · rw [hsplit, List.filterMap_append]
    have h1 : (List.range j).filterMap
        (fun i => if (q * 2 ^ (j + 1) + 2 ^ j).testBit i then some (g i) else none)
        = ([] : List Nat) :=
      filterMap_ite_false fun i hi => testBit_incr_lt (List.mem_range.mp hi)
    rw [List.range_succ, List.filterMap_append, h1]
    have h2 : (((List.range (L - (j + 1))).map fun x => (j + 1) + x).filterMap
        fun i => if (q * 2 ^ (j + 1) + 2 ^ j).testBit i then some (g i) else none)
        = ((List.range (L - (j + 1))).map fun x => (j + 1) + x).filterMap
          fun i => if (q * 2 ^ (j + 1) + (2 ^ j - 1)).testBit i then some (g i) else none := by
      apply List.filterMap_congr
      intro i hi
      obtain ⟨x, _, rfl⟩ := List.mem_map.mp hi
      rw [testBit_trailing_ones_gt (by omega)]
    rw [h2]
    simp [testBit_incr_eq]

/-! ## Tick to sqrt ratio (`src/math/tick.rs`) -/

/-- The 27 entries of `MASKS` from `src/math/tick.rs`; each `U256([l0, l1, 0, 0])`
is the natural number `l0 + l1 * 2^64`. -/
def tickMask : Nat → Nat
  | 0 => 8987818235631183931 + 18446734850344432284 * 2 ^ 64
  | 1 => 1390292817054524432 + 18446725626983924632 * 2 ^ 64
  | 2 => 6106104599673403081 + 18446707180276744355 * 2 ^ 64
  | 3 => 11001558419889720088 + 18446670286917723849 * 2 ^ 64
  | 4 => 11758220747761187196 + 18446596500421042512 * 2 ^ 64
  | 5 => 13410380190397192564 + 18446448928313114404 * 2 ^ 64
  | 6 => 16901990496071521224 + 18446153787638963396 * 2 ^ 64
  | 7 => 2628633744169581664 + 18445563520457217769 * 2 ^ 64
  | 8 => 16741406942698519205 + 18444383042757836574 * 2 ^ 64
  | 9 => 8444515413536692068 + 18442022313998591526 * 2 ^ 64
  | 10 => 9306074004969915320 + 18437301762902803792 * 2 ^ 64
  | 11 => 1215727185815661655 + 18427864285319361663 * 2 ^ 64
  | 12 => 4836152305972799785 + 18409003819927758022 * 2 ^ 64
  | 13 => 465769373252535706 + 18371340779054097314 * 2 ^ 64
  | 14 => 11626538800767970419 + 18296245704473805246 * 2 ^ 64
  | 15 => 13511344043162985703 + 18146975181141493926 * 2 ^ 64
  | 16 => 17542275577360126846 + 17852077684229624197 * 2 ^ 64
  | 17 => 9306072323298629247 + 17276581513264360642 * 2 ^ 64
  | 18 => 8354374849381600509 + 16180647793008867682 * 2 ^ 64
  | 19 => 1840363272369915117 + 14192930847592841948 * 2 ^ 64
  | 20 => 16571633202497044730 + 10920045577671636999 * 2 ^ 64
  | 21 => 7981864148337927882 + 6464414258794766152 * 2 ^ 64
  | 22 => 4190795360855086819 + 2265367348423649960 * 2 ^ 64
  | 23 => 14440677137918516476 + 278200272243057167 * 2 ^ 64
  | 24 => 11954280435123913168 + 4195612578938288 * 2 ^ 64
  | 25 => 1943989925737446246 + 954269482040 * 2 ^ 64
  | 26 => 6723154418996326713 + 49365 * 2 ^ 64
  | _ => 0

def MIN_TICK : Int := -88722835

def MAX_TICK : Int := 88722835

/-- `MIN_SQRT_RATIO = U256([447090492618910, 1, 0, 0])`. -/
def MIN_SQRT_RATIO : Nat := 447090492618910 + 1 * 2 ^ 64

/-- `MAX_SQRT_RATIO = U256([17284140499546007532, 7567914947700146222, 18446296994052723738, 0])`. -/
def MAX_SQRT_RATIO : Nat :=
  17284140499546007532 + 7567914947700146222 * 2 ^ 64 + 18446296994052723738 * 2 ^ 128

def U256_MAX : Nat := 2 ^ 256 - 1

/-- The mask loop of `to_sqrt_ratio`: starting from `ONE_X128 = 2^128`, for
each set bit `i` of the absolute tick, `ratio = (ratio * MASKS[i]) >> 128`.
(`ratio` stays at most `2^128` throughout — see `tickLoop_le` — so the `U256`
multiplication never overflows.) -/
def tickLoop (n : Nat) : Nat :=
  (List.range 27).foldl
    (fun r i => if n.testBit i then mulShift r (tickMask i) else r) (2 ^ 128)

/-- `to_sqrt_ratio` from `src/math/tick.rs`. The out-of-range check precedes
the absolute value, `U256::MAX / ratio` is total here because `ratio` is
provably nonzero on the checked domain (`tickLoop_pos`). -/
def to_sqrt_ratio (tick : Int) : Option Nat :=
  if tick < MIN_TICK ∨ tick > MAX_TICK then none
  else if tick > 0 then some (U256_MAX / tickLoop tick.natAbs)
  else some (tickLoop tick.natAbs)

def tickApplied (n : Nat) : List Nat :=
  (List.range 27).filterMap fun i => if n.testBit i then some (tickMask i) else none

theorem tickLoop_eq_msFold (n : Nat) :
    tickLoop n = msFold (tickApplied n) (2 ^ 128) :=
  foldl_ite_eq_msFold _ _ _ _

theorem tickMask_lt_ball : ∀ i, i < 27 → tickMask i ≤ 2 ^ 128 := by decide

theorem tickMask_map_le : ∀ x ∈ (List.range 27).map tickMask, x ≤ 2 ^ 128 := by
  intro x hx
  obtain ⟨i, hi, rfl⟩ := List.mem_map.mp hx
  exact tickMask_lt_ball i (List.mem_range.mp hi)

theorem tickApplied_sublist (n : Nat) :
    (tickApplied n).Sublist ((List.range 27).map tickMask) :=
  filterMap_ite_sublist _ _ _

theorem tickApplied_le (n : Nat) : ∀ x ∈ tickApplied n, x ≤ 2 ^ 128 :=
  fun x hx => tickMask_map_le x ((tickApplied_sublist n).subset hx)

theorem tickApplied_length (n : Nat) : (tickApplied n).length ≤ 27 := by
  have h := List.length_filterMap_le
    (fun i => if n.testBit i then some (tickMask i) else none) (List.range 27)
  simpa using h

/-- The product of all 27 tick masks. -/
def tickProdAll : Nat := ((List.range 27).map tickMask).prod

set_option maxRecDepth 8000 in
/-- Numeric fact: the full mask product (which lower-bounds every reachable
exact ratio, at scale `2^(128*26)`) is comfortably above `28 * 2^23`. -/
theorem tick_prod_all_lower : 28 * 2 ^ 23 * 2 ^ (128 * 26) ≤ tickProdAll := by decide

set_option maxRecDepth 8000 in
/-- Numeric fact, one instance per possible trailing-ones length `j`: swapping
the masks below `j` for the mask at `j` shrinks the exact product by a factor
of at least `1 - 2^(-23)`. -/
theorem tick_step_margin : ∀ j, j < 27 →
    tickMask j * 2 ^ (128 * j) * 2 ^ 23 + ((List.range j).map tickMask).prod * 2 ^ 128
      ≤ ((List.range j).map tickMask).prod * 2 ^ 128 * 2 ^ 23 := by decide

theorem tickLoop_le (n : Nat) : tickLoop n ≤ 2 ^ 128 := by
  rw [tickLoop_eq_msFold]
  exact msFold_le_self _ (tickApplied_le n) _

/-- One-step strict decrease of the mask loop. -/
theorem tickLoop_succ_lt (n : Nat) (hn : n + 1 < 2 ^ 27) :
    tickLoop (n + 1) + 1 ≤ tickLoop n := by
  obtain ⟨j, q, hrep, hj2⟩ := trailing_ones_decomp n
  have hjL : j < 27 := by
    by_contra hc
    push_neg at hc
    have h27 : (2 : Nat) ^ 27 ≤ 2 ^ j := Nat.pow_le_pow_right (by norm_num) hc
    omega
  have hone : (1 : Nat) ≤ 2 ^ j := Nat.one_le_two_pow
  have hrep' : n + 1 = q * 2 ^ (j + 1) + 2 ^ j := by omega
  obtain ⟨H, hEqn, hEqn1⟩ := applied_decomp tickMask 27 j q hjL
  have e1 : tickApplied n = (List.range j).map tickMask ++ H := by
    rw [tickApplied, hrep]
    exact hEqn
  have e2 : tickApplied (n + 1) = tickMask j :: H := by
    rw [tickApplied, hrep']
    exact hEqn1
  set T := (List.range j).map tickMask with hT
  set w := H.length with hw
  set B := T.prod with hB
  set A := H.prod with hA
  have hTlen : T.length = j := by simp [hT]
  have hlen : j + w ≤ 27 := by
    have := tickApplied_length n
    rw [e1, List.length_append, hTlen] at this
    omega
  have hmem : ∀ x ∈ T ++ H, x ≤ 2 ^ 128 := by
    rw [← e1]
    exact tickApplied_le n
  set F0 := tickLoop n with hF0
  set F1 := tickLoop (n + 1) with hF1
  -- (i) upper bound on the successor fold
  have c1 : F1 * 2 ^ (128 * (w + 1)) ≤ 2 ^ 128 * (tickMask j * A) := by
    have h := msFold_upper (tickMask j :: H) (2 ^ 128)
    rw [hF1, tickLoop_eq_msFold, e2]
    simpa [List.length_cons, hA] using h
  -- (ii) lower bound on the current fold
  have c2 : 2 ^ 128 * (B * A) ≤ (F0 + (j + w)) * 2 ^ (128 * (j + w)) := by
    have h := msFold_lower_small (T ++ H) hmem (2 ^ 128)
    rw [hF0, tickLoop_eq_msFold, e1]
    simpa [List.length_append, List.prod_append, hTlen, hB, hA] using h
  -- (iv) the exact product of the selected masks is large
  have c4 : tickProdAll ≤ B * A * 2 ^ (128 * (27 - (j + w))) := by
    have hsub : (T ++ H).Sublist ((List.range 27).map tickMask) := by
      rw [← e1]
      exact tickApplied_sublist n
    have h := sublist_prod_mul_le hsub tickMask_map_le
    have hlen2 : ((List.range 27).map tickMask).length = 27 := by simp
    calc tickProdAll = ((List.range 27).map tickMask).prod := rfl
      _ ≤ (T ++ H).prod * (2 ^ 128) ^ (((List.range 27).map tickMask).length
            - (T ++ H).length) := h
      _ = B * A * 2 ^ (128 * (27 - (j + w))) := by
          rw [List.prod_append, ← hB, ← hA, hlen2, List.length_append, hTlen, ← hw,
            ← pow_mul]
  -- (iv') renormalized form of the product lower bound
  have c4a : 28 * 2 ^ 23 * 2 ^ (128 * (j + w)) ≤ B * A * 2 ^ 128 := by
    have h1 : 28 * 2 ^ 23 * 2 ^ (128 * 26) ≤ B * A * 2 ^ (128 * (27 - (j + w))) :=
      le_trans tick_prod_all_lower c4
    have h2 : 28 * 2 ^ 23 * 2 ^ (128 * 26) * 2 ^ (128 * (j + w))
        ≤ B * A * 2 ^ (128 * (27 - (j + w))) * 2 ^ (128 * (j + w)) :=
      Nat.mul_le_mul_right _ h1
    have e3 : B * A * 2 ^ (128 * (27 - (j + w))) * 2 ^ (128 * (j + w))
        = B * A * 2 ^ 128 * 2 ^ (128 * 26) := by
      rw [mul_assoc (B * A), ← pow_add, mul_assoc (B * A), ← pow_add]
      congr 2
      omega
    have e4 : 28 * 2 ^ 23 * 2 ^ (128 * 26) * 2 ^ (128 * (j + w))
        = 28 * 2 ^ 23 * 2 ^ (128 * (j + w)) * 2 ^ (128 * 26) := by ring
    rw [e3, e4] at h2
    exact Nat.le_of_mul_le_mul_right h2 (by positivity)
  -- (iii) the margin inequality, scaled by `2^128 * A`
  have c3 : tickMask j * 2 ^ (128 * j) * 2 ^ 23 * (2 ^ 128 * A)
      + B * 2 ^ 128 * (2 ^ 128 * A)
      ≤ B * 2 ^ 128 * 2 ^ 23 * (2 ^ 128 * A) := by
    have h := tick_step_margin j hjL
    rw [← hT] at h
    calc tickMask j * 2 ^ (128 * j) * 2 ^ 23 * (2 ^ 128 * A)
          + B * 2 ^ 128 * (2 ^ 128 * A)
        = (tickMask j * 2 ^ (128 * j) * 2 ^ 23 + B * 2 ^ 128) * (2 ^ 128 * A) := by ring
      _ ≤ B * 2 ^ 128 * 2 ^ 23 * (2 ^ 128 * A) := Nat.mul_le_mul_right _ h
  -- assemble the chain, rewriting all powers over the atoms
  -- `Pj = 2^(128*j)`, `Pw = 2^(128*w)`, `P = 2^128`, `L = 2^23`
  have hPw1 : (2 : Nat) ^ (128 * (w + 1)) = 2 ^ (128 * w) * 2 ^ 128 := by
    rw [Nat.mul_add, Nat.mul_one, pow_add]
  have hPjw : (2 : Nat) ^ (128 * (j + w)) = 2 ^ (128 * j) * 2 ^ (128 * w) := by
    rw [Nat.mul_add, pow_add]
  rw [hPw1] at c1
  rw [hPjw] at c2 c4a
  set P := (2 : Nat) ^ 128 with hP
  set L := (2 : Nat) ^ 23 with hL
  set Pj := (2 : Nat) ^ (128 * j) with hPj
  set Pw := (2 : Nat) ^ (128 * w) with hPw
  set Mj := tickMask j with hMj
  have main : (F1 + 28) * (Pj * Pw * P * L) ≤ (F0 + (j + w)) * (Pj * Pw * P * L) := by
    calc (F1 + 28) * (Pj * Pw * P * L)
        = F1 * (Pw * P) * (Pj * L) + 28 * L * (Pj * Pw) * P := by ring
      _ ≤ P * (Mj * A) * (Pj * L) + B * A * P * P :=
          Nat.add_le_add (Nat.mul_le_mul_right _ c1) (Nat.mul_le_mul_right _ c4a)
      _ = Mj * Pj * L * (P * A) + B * P * (P * A) := by ring
      _ ≤ B * P * L * (P * A) := c3
      _ = P * (B * A) * (P * L) := by ring
      _ ≤ (F0 + (j + w)) * (Pj * Pw) * (P * L) := Nat.mul_le_mul_right _ c2
      _ = (F0 + (j + w)) * (Pj * Pw * P * L) := by ring
  have hfin : F1 + 28 ≤ F0 + (j + w) := by
    refine Nat.le_of_mul_le_mul_right main ?_
    rw [hPj, hPw, hP, hL]
    positivity
  omega

/-- The mask loop is strictly decreasing on `[0, 2^27)`. -/
theorem tickLoop_strict_anti (a : Nat) :
    ∀ b, a < b → b < 2 ^ 27 → tickLoop b < tickLoop a := by
  intro b
  induction b with
  | zero => omega
  | succ b ih =>
    intro hab hb
    have hstep : tickLoop (b + 1) + 1 ≤ tickLoop b := tickLoop_succ_lt b hb
    rcases Nat.lt_or_ge a b with h | h
    · have := ih h (by omega)
      omega
    · have hae : a = b := by omega
      subst hae
      omega

theorem tickLoop_zero : tickLoop 0 = 2 ^ 128 := by decide

/-- The mask loop never reaches zero (so `U256::MAX / ratio` never divides by
zero and the `U256` multiplications inside the loop never overflow). -/
theorem tickLoop_pos (n : Nat) : 0 < tickLoop n := by
  set S := tickApplied n with hS
  have hlen : S.length ≤ 27 := tickApplied_length n
  have h1 : 2 ^ 128 * S.prod ≤ (tickLoop n + S.length) * 2 ^ (128 * S.length) := by
    have h := msFold_lower_small S (tickApplied_le n) (2 ^ 128)
    rw [tickLoop_eq_msFold]
    exact h
  have h2 : tickProdAll ≤ S.prod * 2 ^ (128 * (27 - S.length)) := by
    have h := sublist_prod_mul_le (tickApplied_sublist n) tickMask_map_le
    have hlen2 : ((List.range 27).map tickMask).length = 27 := by simp
    calc tickProdAll = ((List.range 27).map tickMask).prod := rfl
      _ ≤ S.prod * (2 ^ 128) ^ (((List.range 27).map tickMask).length - S.length) := h
      _ = S.prod * 2 ^ (128 * (27 - S.length)) := by rw [hlen2, ← pow_mul]
  have h3 : 28 * 2 ^ 23 * 2 ^ (128 * 27) ≤ (tickLoop n + 27) * 2 ^ (128 * 27) := by
    have e1 : (2 : Nat) ^ (128 * 27)
        = 2 ^ (128 * (27 - S.length)) * 2 ^ (128 * S.length) := by
      rw [← pow_add]
      congr 1
      omega
    calc 28 * 2 ^ 23 * 2 ^ (128 * 27)
        = 28 * 2 ^ 23 * 2 ^ (128 * 26) * 2 ^ 128 := by
          rw [mul_assoc (28 * 2 ^ 23), ← pow_add]
      _ ≤ tickProdAll * 2 ^ 128 := Nat.mul_le_mul_right _ tick_prod_all_lower
      _ ≤ S.prod * 2 ^ (128 * (27 - S.length)) * 2 ^ 128 := Nat.mul_le_mul_right _ h2
      _ = 2 ^ 128 * S.prod * 2 ^ (128 * (27 - S.length)) := by ring
      _ ≤ (tickLoop n + S.length) * 2 ^ (128 * S.length) * 2 ^ (128 * (27 - S.length)) :=
          Nat.mul_le_mul_right _ h1
      _ ≤ (tickLoop n + 27) * 2 ^ (128 * S.length) * 2 ^ (128 * (27 - S.length)) := by
          refine Nat.mul_le_mul_right _ (Nat.mul_le_mul_right _ ?_)
          omega
      _ = (tickLoop n + 27) * 2 ^ (128 * 27) := by
          rw [e1]
          ring
  have h4 : 28 * 2 ^ 23 ≤ tickLoop n + 27 :=
    Nat.le_of_mul_le_mul_right h3 (by positivity)
  omega

/-- Strict monotonicity of `x ↦ U256_MAX / x` across a gap of at least one,
for divisors at most `2^128`. -/
theorem u256_div_strict {a b : Nat} (hb : 0 < b) (hba : b + 1 ≤ a)
    (ha : a ≤ 2 ^ 128) : U256_MAX / a + 1 ≤ U256_MAX / b := by
  have hqa : U256_MAX / a * a ≤ U256_MAX := Nat.div_mul_le_self _ _
  have hfloor : U256_MAX / 2 ^ 128 = 2 ^ 128 - 1 := by decide
  have hqlarge : 2 ^ 128 - 1 ≤ U256_MAX / a := by
    rw [← hfloor]
    exact Nat.div_le_div_left ha (by omega)
  have hbq : b ≤ U256_MAX / a := by omega
  have key : (U256_MAX / a + 1) * b ≤ U256_MAX :=
    calc (U256_MAX / a + 1) * b = U256_MAX / a * b + b := by ring
      _ ≤ U256_MAX / a * b + U256_MAX / a := by omega
      _ = (b + 1) * (U256_MAX / a) := by ring
      _ ≤ a * (U256_MAX / a) := Nat.mul_le_mul_right _ hba
      _ = U256_MAX / a * a := by ring
      _ ≤ U256_MAX := hqa
  exact (Nat.le_div_iff_mul_le hb).mpr key

theorem to_sqrt_ratio_of_nonpos {t : Int} (h1 : MIN_TICK ≤ t) (h2 : t ≤ 0) :
    to_sqrt_ratio t = some (tickLoop t.natAbs) := by
  rw [to_sqrt_ratio]
  rw [if_neg, if_neg]
  · omega
  · rw [MIN_TICK, MAX_TICK] at *
    omega

theorem to_sqrt_ratio_of_pos {t : Int} (h1 : 0 < t) (h2 : t ≤ MAX_TICK) :
    to_sqrt_ratio t = some (U256_MAX / tickLoop t.natAbs) := by
  rw [to_sqrt_ratio]
  rw [if_neg, if_pos h1]
  rw [MIN_TICK, MAX_TICK] at *
  omega

theorem natAbs_lt_two_pow_27 {t : Int} (h1 : MIN_TICK ≤ t) (h2 : t ≤ MAX_TICK) :
    t.natAbs < 2 ^ 27 := by
  rw [MIN_TICK, MAX_TICK] at *
  omega

/-- C6: `to_sqrt_ratio` is strictly monotonically increasing on the valid
tick range. -/
theorem c6_to_sqrt_ratio_strict_mono (a b : Int) (va vb : Nat)
    (hamin : MIN_TICK ≤ a) (hab : a < b) (hbmax : b ≤ MAX_TICK)
    (hva : to_sqrt_ratio a = some va) (hvb : to_sqrt_ratio b = some vb) :
    va < vb := by
  have hA27 : a.natAbs < 2 ^ 27 := natAbs_lt_two_pow_27 hamin (by omega)
  have hB27 : b.natAbs < 2 ^ 27 := natAbs_lt_two_pow_27 (by omega) hbmax
  rcases le_or_lt b 0 with hb0 | hb0
  · -- both ticks nonpositive: the loop value itself, strictly decreasing in |t|
    rw [to_sqrt_ratio_of_nonpos (by omega) hb0] at hvb
    rw [to_sqrt_ratio_of_nonpos hamin (by omega)] at hva
    obtain rfl := Option.some.inj hva
    obtain rfl := Option.some.inj hvb
    refine tickLoop_strict_anti b.natAbs a.natAbs ?_ hA27
    omega
  · rw [to_sqrt_ratio_of_pos hb0 hbmax] at hvb
    obtain rfl := Option.some.inj hvb
    have hvb_lb : U256_MAX / tickLoop 1 ≤ U256_MAX / tickLoop b.natAbs := by
      have hle : tickLoop b.natAbs ≤ tickLoop 1 := by
        rcases Nat.lt_or_ge 1 b.natAbs with h | h
        · exact Nat.le_of_lt (tickLoop_strict_anti 1 b.natAbs h hB27)
        · have : b.natAbs = 1 := by omega
          rw [this]
      exact Nat.div_le_div_left hle (tickLoop_pos _)
    rcases le_or_lt a 0 with ha0 | ha0
    · -- a nonpositive, b positive
      rw [to_sqrt_ratio_of_nonpos hamin ha0] at hva
      obtain rfl := Option.some.inj hva
      have h1 : tickLoop a.natAbs ≤ 2 ^ 128 := tickLoop_le _
      have h2 : 2 ^ 128 < U256_MAX / tickLoop 1 := by decide
      omega
    · -- both positive
      rw [to_sqrt_ratio_of_pos ha0 (by omega)] at hva
      obtain rfl := Option.some.inj hva
      have hgap : tickLoop b.natAbs + 1 ≤ tickLoop a.natAbs := by
        refine tickLoop_strict_anti a.natAbs b.natAbs ?_ hB27
        omega
      have := u256_div_strict (tickLoop_pos b.natAbs) hgap (tickLoop_le a.natAbs)
      omega

set_option maxRecDepth 4000 in
/-- C6 witness at the concrete ticks 0 and 1. -/
theorem c6_witness :
    to_sqrt_ratio 0 = some (2 ^ 128) ∧
      to_sqrt_ratio 1 = some (U256_MAX / tickLoop 1) ∧
      2 ^ 128 < U256_MAX / tickLoop 1 := by
  refine ⟨by decide, by decide, ?_⟩
  have h := c6_to_sqrt_ratio_strict_mono 0 1 (2 ^ 128) (U256_MAX / tickLoop 1)
    (by decide) (by decide) (by decide) (by decide) (by decide)
  exact h

set_option maxRecDepth 4000 in
/-- C7: the named boundary constants equal the algorithm output at the
boundary ticks exactly. -/
theorem c7_boundary_constants :
    to_sqrt_ratio MIN_TICK = some MIN_SQRT_RATIO ∧
      to_sqrt_ratio MAX_TICK = some MAX_SQRT_RATIO := by
  constructor
  · decide
  · decide

/-- C9: on the `i32` domain, `to_sqrt_ratio` returns `none` exactly for ticks
outside `[MIN_TICK, MAX_TICK]` (in particular for `i32::MIN`, which the range
check rejects before any absolute value is taken) and `some` inside. -/
theorem c9_domain (t : Int) (h1 : -(2 : Int) ^ 31 ≤ t) (h2 : t < 2 ^ 31) :
    (to_sqrt_ratio t = none ↔ (t < MIN_TICK ∨ MAX_TICK < t)) ∧
      ((to_sqrt_ratio t).isSome ↔ (MIN_TICK ≤ t ∧ t ≤ MAX_TICK)) := by
  rw [to_sqrt_ratio]
  by_cases h : t < MIN_TICK ∨ t > MAX_TICK
  · rw [if_pos h]
    constructor
    · simp only [true_iff]
      exact h
    · simp only [Option.isSome_none, Bool.false_eq_true, false_iff]
      omega
  · rw [if_neg h]
    push_neg at h
    constructor
    · by_cases hp : t > 0
      · rw [if_pos hp]
        simp only [reduceCtorEq, false_iff]
        omega
      · rw [if_neg hp]
        simp only [reduceCtorEq, false_iff]
        omega
    · by_cases hp : t > 0
      · rw [if_pos hp]
        simp only [Option.isSome_some, true_iff]
        omega
      · rw [if_neg hp]
        simp only [Option.isSome_some, true_iff]
        omega

/-- C9 witness at `i32::MIN`. -/
theorem c9_witness :
    (to_sqrt_ratio (-(2 : Int) ^ 31) = none ↔
        ((-(2 : Int) ^ 31) < MIN_TICK ∨ MAX_TICK < (-(2 : Int) ^ 31))) ∧
      ((to_sqrt_ratio (-(2 : Int) ^ 31)).isSome ↔
        (MIN_TICK ≤ (-(2 : Int) ^ 31) ∧ (-(2 : Int) ^ 31) ≤ MAX_TICK)) :=
  c9_domain (-(2 : Int) ^ 31) (by norm_num) (by norm_num)

/-! ## Fixed-point base-2 exponential (`src/math/twamm/exp2.rs`) -/

/-- The 64 `exp2` constants, indexed by the bit of `x` they are matched
against: `expMask 63` is the factor for mask `0x8000000000000000` (the first
`mul_shift!` line of the source), down to `expMask 0` for mask `0x1`. -/
def expMask : Nat → Nat
  | 63 => 0x16A09E667F3BCC908B2FB1366EA957D3E
  | 62 => 0x1306FE0A31B7152DE8D5A46305C85EDEC
  | 61 => 0x1172B83C7D517ADCDF7C8C50EB14A791F
  | 60 => 0x10B5586CF9890F6298B92B71842A98363
  | 59 => 0x1059B0D31585743AE7C548EB68CA417FD
  | 58 => 0x102C9A3E778060EE6F7CACA4F7A29BDE8
  | 57 => 0x10163DA9FB33356D84A66AE336DCDFA3F
  | 56 => 0x100B1AFA5ABCBED6129AB13EC11DC9543
  | 55 => 0x10058C86DA1C09EA1FF19D294CF2F679B
  | 54 => 0x1002C605E2E8CEC506D21BFC89A23A00F
  | 53 => 0x100162F3904051FA128BCA9C55C31E5DF
  | 52 => 0x1000B175EFFDC76BA38E31671CA939725
  | 51 => 0x100058BA01FB9F96D6CACD4B180917C3D
  | 50 => 0x10002C5CC37DA9491D0985C348C68E7B3
  | 49 => 0x1000162E525EE054754457D5995292026
  | 48 => 0x10000B17255775C040618BF4A4ADE83FC
  | 47 => 0x1000058B91B5BC9AE2EED81E9B7D4CFAB
  | 46 => 0x100002C5C89D5EC6CA4D7C8ACC017B7C9
  | 45 => 0x10000162E43F4F831060E02D839A9D16D
  | 44 => 0x100000B1721BCFC99D9F890EA06911763
  | 43 => 0x10000058B90CF1E6D97F9CA14DBCC1628
  | 42 => 0x1000002C5C863B73F016468F6BAC5CA2B
  | 41 => 0x100000162E430E5A18F6119E3C02282A5
  | 40 => 0x1000000B1721835514B86E6D96EFD1BFE
  | 39 => 0x100000058B90C0B48C6BE5DF846C5B2EF
  | 38 => 0x10000002C5C8601CC6B9E94213C72737A
  | 37 => 0x1000000162E42FFF037DF38AA2B219F06
  | 36 => 0x10000000B17217FBA9C739AA5819F44F9
  | 35 => 0x1000000058B90BFCDEE5ACD3C1CEDC823
  | 34 => 0x100000002C5C85FE31F35A6A30DA1BE50
  | 33 => 0x10000000162E42FF0999CE3541B9FFFCF
  | 32 => 0x100000000B17217F80F4EF5AADDA45554
  | 31 => 0x10000000058B90BFBF8479BD5A81B51AD
  | 30 => 0x1000000002C5C85FDF84BD62AE30A74CC
  | 29 => 0x100000000162E42FEFB2FED257559BDAA
  | 28 => 0x1000000000B17217F7D5A7716BBA4A9AE
  | 27 => 0x100000000058B90BFBE9DDBAC5E109CCE
  | 26 => 0x10000000002C5C85FDF4B15DE6F17EB0D
  | 25 => 0x1000000000162E42FEFA494F1478FDE05
  | 24 => 0x10000000000B17217F7D20CF927C8E94C
  | 23 => 0x1000000000058B90BFBE8F71CB4E4B33D
  | 22 => 0x100000000002C5C85FDF477B662B26945
  | 21 => 0x10000000000162E42FEFA3AE53369388C
  | 20 => 0x100000000000B17217F7D1D351A389D40
  | 19 => 0x10000000000058B90BFBE8E8B2D3D4EDE
  | 18 => 0x1000000000002C5C85FDF4741BEA6E77E
  | 17 => 0x100000000000162E42FEFA39FE95583C2
  | 16 => 0x1000000000000B17217F7D1CFB72B45E1
  | 15 => 0x100000000000058B90BFBE8E7CC35C3F0
  | 14 => 0x10000000000002C5C85FDF473E242EA38
  | 13 => 0x1000000000000162E42FEFA39F02B772C
  | 12 => 0x10000000000000B17217F7D1CF7D83C1A
  | 11 => 0x1000000000000058B90BFBE8E7BDCBE2E
  | 10 => 0x100000000000002C5C85FDF473DEA871F
  | 9 => 0x10000000000000162E42FEFA39EF44D91
  | 8 => 0x100000000000000B17217F7D1CF79E949
  | 7 => 0x10000000000000058B90BFBE8E7BCE544
  | 6 => 0x1000000000000002C5C85FDF473DE6ECA
  | 5 => 0x100000000000000162E42FEFA39EF366F
  | 4 => 0x1000000000000000B17217F7D1CF79AFA
  | 3 => 0x100000000000000058B90BFBE8E7BCD6D
  | 2 => 0x10000000000000002C5C85FDF473DE6B2
  | 1 => 0x1000000000000000162E42FEFA39EF358
  | 0 => 0x10000000000000000B17217F7D1CF79AB
  | _ => 0

/-- The multiply-and-rescale phase of `exp2`: starting from `2^127`, the bits
of the fractional part are processed from bit 63 down to bit 0, exactly in
source order. -/
def expLoop (f : Nat) : Nat :=
  ((List.range 64).reverse).foldl
    (fun r b => if f.testBit b then mulShift r (expMask b) else r) (2 ^ 127)

/-- A `U256` multiplication followed by `>> 128`, failing (panicking) if the
product overflows the 256-bit width. -/
def mulShiftChecked (r m : Nat) : Option Nat :=
  if r * m < 2 ^ 256 then some (mulShift r m) else none

def msFoldChecked (ms : List Nat) (r : Nat) : Option Nat :=
  ms.foldl (fun acc m => acc.bind fun x => mulShiftChecked x m) (some r)

/-- The loop of `exp2` with the overflow behaviour of the `U256`
multiplications made explicit. -/
def expLoopChecked (f : Nat) : Option Nat :=
  ((List.range 64).reverse).foldl
    (fun acc b => acc.bind fun r =>
      if f.testBit b then mulShiftChecked r (expMask b) else some r)
    (some (2 ^ 127))

/-- `exp2` from `src/math/twamm/exp2.rs` on an `i128` argument. `none` models
the `assert!` aborts and a `U256` multiplication overflow; `x % 2^64` (the
Euclidean remainder) is the two's-complement fractional part tested by the 64
bit masks and `x / 2^64` (flooring division) is the arithmetic shift
`x >> 64`; `result >>= shift` is division by `2^shift`. -/
def exp2 (x : Int) : Option Nat :=
  if 0x400000000000000000 ≤ x then none
  else if x < -0x400000000000000000 then some 0
  else
    (expLoopChecked (x % 2 ^ 64).toNat).bind fun r =>
      let result := r / 2 ^ (63 - x / 2 ^ 64).toNat
      if result ≤ 2 ^ 128 - 1 then some result else none

/-- The value computed by `exp2` where it returns normally. -/
def exp2Val (x : Int) : Nat :=
  if x < -0x400000000000000000 then 0
  else expLoop (x % 2 ^ 64).toNat / 2 ^ (63 - x / 2 ^ 64).toNat

def expApplied (f : Nat) : List Nat :=
  ((List.range 64).reverse).filterMap
    fun b => if f.testBit b then some (expMask b) else none

theorem expLoop_eq_msFold (f : Nat) :
    expLoop f = msFold (expApplied f) (2 ^ 127) :=
  foldl_ite_eq_msFold _ _ _ _

theorem expMask_ge_ball : ∀ b, b < 64 → 2 ^ 128 ≤ expMask b := by decide

theorem expMask_map_ge : ∀ x ∈ ((List.range 64).reverse).map expMask, 2 ^ 128 ≤ x := by
  intro x hx
  obtain ⟨b, hb, rfl⟩ := List.mem_map.mp hx
  rw [List.mem_reverse] at hb
  exact expMask_ge_ball b (List.mem_range.mp hb)

theorem expApplied_sublist (f : Nat) :
    (expApplied f).Sublist (((List.range 64).reverse).map expMask) :=
  filterMap_ite_sublist _ _ _

theorem expApplied_ge (f : Nat) : ∀ x ∈ expApplied f, 2 ^ 128 ≤ x :=
  fun x hx => expMask_map_ge x ((expApplied_sublist f).subset hx)

theorem expApplied_length (f : Nat) : (expApplied f).length ≤ 64 := by
  have h := List.length_filterMap_le
    (fun b => if f.testBit b then some (expMask b) else none) ((List.range 64).reverse)
  calc (expApplied f).length ≤ ((List.range 64).reverse).length := h
    _ = 64 := by simp

/-- The product of all 64 `exp2` mask constants. -/
def expProdAll : Nat := (((List.range 64).reverse).map expMask).prod

set_option maxRecDepth 4000 in
/-- Numeric fact: the product of all 64 factors is (strictly) below
`2 * 2^(128*64)` -- the factors multiply to just under `2^(1 - 2^(-64))` times
the scale. -/
theorem exp_prod_all_upper : expProdAll + 1 ≤ 2 * (2 ^ 128) ^ 64 := by decide

set_option maxRecDepth 4000 in
/-- Numeric fact, one instance per trailing-ones length `j`: trading the
factors below bit `j` for the factor at bit `j` grows the exact product by a
factor of at least `1 + 2^(-66)`. -/
theorem exp_step_margin : ∀ j, j < 64 →
    ((List.range j).map expMask).prod * 2 ^ 128 * 2 ^ 66
        + ((List.range j).map expMask).prod * 2 ^ 128
      ≤ expMask j * (2 ^ 128) ^ j * 2 ^ 66 := by decide

theorem expApplied_sub_prod_bound (f : Nat) {s : List Nat}
    (hs : s.Sublist (expApplied f)) : s.prod + 1 ≤ 2 * (2 ^ 128) ^ s.length := by
  have hsub : s.Sublist (((List.range 64).reverse).map expMask) :=
    hs.trans (expApplied_sublist f)
  have hlen64 : (((List.range 64).reverse).map expMask).length = 64 := by simp
  have hslen : s.length ≤ 64 := by
    have := hsub.length_le
    omega
  have h1 : s.prod * (2 ^ 128) ^ (64 - s.length)
      ≤ expProdAll := by
    have h := sublist_mul_pow_le_prod hsub expMask_map_ge
    rw [hlen64] at h
    exact h
  have h2 : s.prod * (2 ^ 128) ^ (64 - s.length) + 1 ≤ 2 * (2 ^ 128) ^ 64 := by
    have := exp_prod_all_upper
    omega
  have hsplit : ((2 : Nat) ^ 128) ^ 64
      = (2 ^ 128) ^ s.length * (2 ^ 128) ^ (64 - s.length) := by
    rw [← pow_add]
    congr 1
    omega
  rw [hsplit] at h2
  by_contra hc
  push_neg at hc
  have hge : 2 * (2 ^ 128) ^ s.length ≤ s.prod := by omega
  have h3 : 2 * (2 ^ 128) ^ s.length * (2 ^ 128) ^ (64 - s.length)
      ≤ s.prod * (2 ^ 128) ^ (64 - s.length) := Nat.mul_le_mul_right _ hge
  have h4 : 2 * ((2 ^ 128) ^ s.length * (2 ^ 128) ^ (64 - s.length))
      = 2 * (2 ^ 128) ^ s.length * (2 ^ 128) ^ (64 - s.length) := by ring
  omega

theorem msFoldChecked_none (ms : List Nat) :
    ms.foldl (fun acc m => acc.bind fun x => mulShiftChecked x m) none = none := by
  induction ms with
  | nil => rfl
  | cons m rest ih => simpa using ih

theorem msFoldChecked_cons (m : Nat) (ms : List Nat) (r : Nat) :
    msFoldChecked (m :: ms) r
      = (mulShiftChecked r m).bind fun x => msFoldChecked ms x := by
  rw [msFoldChecked, List.foldl_cons]
  cases h : mulShiftChecked r m with
  | none =>
    simp only [Option.some_bind, h, Option.none_bind]
    exact msFoldChecked_none ms
  | some r2 =>
    simp only [Option.some_bind, h]
    rfl

/-- As long as the running value is below `2^127 * Q / (2^128)^c` for a prefix
product `Q` of masks that are all at least `2^128` and whose completed product
stays under `2 * (2^128)^(c + len)`, no multiplication in the checked fold can
overflow `U256`. -/
theorem msFoldChecked_eq (ms : List Nat) : ∀ (r Q c : Nat),
    r * (2 ^ 128) ^ c ≤ 2 ^ 127 * Q →
    Q * ms.prod + 1 ≤ 2 * (2 ^ 128) ^ (c + ms.length) →
    (∀ m ∈ ms, 2 ^ 128 ≤ m) →
    msFoldChecked ms r = some (msFold ms r) := by
  induction ms with
  | nil => intro r Q c _ _ _; rfl
  | cons m rest ih =>
    intro r Q c h1 h2 helem
    have hrest : ∀ x ∈ rest, 2 ^ 128 ≤ x := fun x hx => helem x (List.mem_cons_of_mem _ hx)
    have hm : 2 ^ 128 ≤ m := helem m (List.mem_cons_self _ _)
    have hk : (2 ^ 128 : Nat) ^ rest.length ≤ rest.prod := by
      have h := pow_le_prod_of_forall_le hrest
      exact h
    -- no overflow at this step
    have hsum : r * m * ((2 ^ 128) ^ c * (2 ^ 128) ^ rest.length) + 2 ^ 127
        ≤ 2 ^ 256 * ((2 ^ 128) ^ c * (2 ^ 128) ^ rest.length) := by
      have s1 : r * m * ((2 ^ 128) ^ c * (2 ^ 128) ^ rest.length)
          ≤ 2 ^ 127 * Q * (m * (2 ^ 128) ^ rest.length) := by
        calc r * m * ((2 ^ 128) ^ c * (2 ^ 128) ^ rest.length)
            = r * (2 ^ 128) ^ c * (m * (2 ^ 128) ^ rest.length) := by ring
          _ ≤ 2 ^ 127 * Q * (m * (2 ^ 128) ^ rest.length) := Nat.mul_le_mul_right _ h1
      have s2 : 2 ^ 127 * Q * (m * (2 ^ 128) ^ rest.length)
          ≤ 2 ^ 127 * (Q * (m :: rest).prod) := by
        calc 2 ^ 127 * Q * (m * (2 ^ 128) ^ rest.length)
            = 2 ^ 127 * (Q * (m * (2 ^ 128) ^ rest.length)) := by ring
          _ ≤ 2 ^ 127 * (Q * (m * rest.prod)) := by
              refine Nat.mul_le_mul_left _ (Nat.mul_le_mul_left _ ?_)
              exact Nat.mul_le_mul_left _ hk
          _ = 2 ^ 127 * (Q * (m :: rest).prod) := by simp
      have s3 : 2 ^ 127 * (Q * (m :: rest).prod) + 2 ^ 127
          ≤ 2 ^ 127 * (2 * (2 ^ 128) ^ (c + (m :: rest).length)) := by
        calc 2 ^ 127 * (Q * (m :: rest).prod) + 2 ^ 127
            = 2 ^ 127 * (Q * (m :: rest).prod + 1) := by ring
          _ ≤ 2 ^ 127 * (2 * (2 ^ 128) ^ (c + (m :: rest).length)) :=
              Nat.mul_le_mul_left _ h2
      have s4 : 2 ^ 127 * (2 * (2 ^ 128) ^ (c + (m :: rest).length))
          = 2 ^ 256 * ((2 ^ 128) ^ c * (2 ^ 128) ^ rest.length) := by
        have e1 : ((2 : Nat) ^ 128) ^ (c + (m :: rest).length)
            = (2 ^ 128) ^ c * (2 ^ 128) ^ rest.length * 2 ^ 128 := by
          rw [← pow_add, ← pow_succ]
          congr 1
        rw [e1]
        ring
      omega
    have hover : r * m < 2 ^ 256 := by
      by_contra hc
      push_neg at hc
      have : 2 ^ 256 * ((2 ^ 128) ^ c * (2 ^ 128) ^ rest.length)
          ≤ r * m * ((2 ^ 128) ^ c * (2 ^ 128) ^ rest.length) :=
        Nat.mul_le_mul_right _ hc
      have hpos : 0 < (2 : Nat) ^ 127 := by positivity
      omega
    have hchk : mulShiftChecked r m = some (mulShift r m) := by
      rw [mulShiftChecked, if_pos hover]
    rw [msFoldChecked_cons, hchk, Option.some_bind, msFold_cons]
    -- recurse with the extended prefix
    refine ih (mulShift r m) (Q * m) (c + 1) ?_ ?_ hrest
    · have hq : mulShift r m * 2 ^ 128 ≤ r * m := Nat.div_mul_le_self _ _
      calc mulShift r m * (2 ^ 128) ^ (c + 1)
          = mulShift r m * 2 ^ 128 * (2 ^ 128) ^ c := by
            rw [pow_succ]
            ring
        _ ≤ r * m * (2 ^ 128) ^ c := Nat.mul_le_mul_right _ hq
        _ = r * (2 ^ 128) ^ c * m := by ring
        _ ≤ 2 ^ 127 * Q * m := Nat.mul_le_mul_right _ h1
        _ = 2 ^ 127 * (Q * m) := by ring
    · calc Q * m * rest.prod + 1 = Q * (m :: rest).prod + 1 := by simp; ring
        _ ≤ 2 * (2 ^ 128) ^ (c + (m :: rest).length) := h2
        _ = 2 * (2 ^ 128) ^ (c + 1 + rest.length) := by
            congr 1
            simp [List.length_cons]
            ring

theorem foldl_ite_checked (p : Nat → Bool) (g : Nat → Nat) :
    ∀ (l : List Nat) (r : Nat),
      l.foldl (fun acc b => acc.bind fun x =>
          if p b then mulShiftChecked x (g b) else some x) (some r)
        = msFoldChecked (l.filterMap fun b => if p b then some (g b) else none) r := by
  intro l
  induction l with
  | nil => intro r; rfl
  | cons b rest ih =>
    intro r
    by_cases hp : p b
    · rw [List.foldl_cons]
      simp only [hp, if_true, Option.some_bind]
      have hfm : ((b :: rest).filterMap fun i => if p i then some (g i) else none)
          = g b :: (rest.filterMap fun i => if p i then some (g i) else none) := by
        simp [hp]
      rw [hfm, msFoldChecked_cons]
      cases h : mulShiftChecked r (g b) with
      | none =>
        simp only [Option.none_bind]
        clear ih hfm
        induction rest with
        | nil => rfl
        | cons c rest2 ih2 => simpa using ih2
      | some r2 =>
        simp only [Option.some_bind]
        exact ih r2
    · rw [List.foldl_cons]
      simp only [hp, if_false, Option.some_bind]
      have hfm : ((b :: rest).filterMap fun i => if p i then some (g i) else none)
          = rest.filterMap fun i => if p i then some (g i) else none := by
        simp [hp]
      rw [hfm]
      exact ih r

theorem expLoopChecked_eq (f : Nat) : expLoopChecked f = some (expLoop f) := by
  rw [expLoopChecked, foldl_ite_checked, expLoop_eq_msFold]
  refine msFoldChecked_eq (expApplied f) (2 ^ 127) 1 0 (by simp) ?_ (expApplied_ge f)
  have h := expApplied_sub_prod_bound f (List.Sublist.refl _)
  simpa using h

theorem expLoop_lt (f : Nat) : expLoop f < 2 ^ 128 := by
  have hup := msFold_upper (expApplied f) (2 ^ 127)
  rw [← expLoop_eq_msFold] at hup
  have hbd := expApplied_sub_prod_bound f (List.Sublist.refl _)
  have hpm : (2 : Nat) ^ (128 * (expApplied f).length)
      = (2 ^ 128) ^ (expApplied f).length := pow_mul 2 128 _
  rw [hpm] at hup
  set X := ((2 : Nat) ^ 128) ^ (expApplied f).length with hX
  have hXpos : 0 < X := by rw [hX]; positivity
  have h1 : expLoop f * X + 2 ^ 127 ≤ 2 ^ 128 * X := by
    calc expLoop f * X + 2 ^ 127
        ≤ 2 ^ 127 * (expApplied f).prod + 2 ^ 127 := by
          have := hup
          omega
      _ = 2 ^ 127 * ((expApplied f).prod + 1) := by ring
      _ ≤ 2 ^ 127 * (2 * X) := Nat.mul_le_mul_left _ hbd
      _ = 2 ^ 128 * X := by ring
  have h2 : expLoop f * X < 2 ^ 128 * X := by
    have hpos : 0 < (2 : Nat) ^ 127 := by positivity
    omega
  exact lt_of_mul_lt_mul_right h2 (Nat.zero_le X)

theorem expLoop_ge (f : Nat) : 2 ^ 127 ≤ expLoop f := by
  rw [expLoop_eq_msFold]
  exact msFold_ge_self _ (expApplied_ge f) _

theorem exp2_eq_some {x : Int} (h : x < 0x400000000000000000) :
    exp2 x = some (exp2Val x) := by
  rw [exp2, exp2Val, if_neg (by omega)]
  by_cases h2 : x < -0x400000000000000000
  · rw [if_pos h2, if_pos h2]
  · rw [if_neg h2, if_neg h2, expLoopChecked_eq, Option.some_bind]
    have hle : expLoop (x % 2 ^ 64).toNat / 2 ^ (63 - x / 2 ^ 64).toNat
        ≤ 2 ^ 128 - 1 := by
      have h1 : expLoop (x % 2 ^ 64).toNat < 2 ^ 128 := expLoop_lt _
      have h2 := Nat.div_le_self (expLoop (x % 2 ^ 64).toNat)
        (2 ^ (63 - x / 2 ^ 64).toNat)
      omega
    rw [if_pos hle]

set_option maxRecDepth 4000 in
theorem expLoop_zero : expLoop 0 = 2 ^ 127 := by decide

/-- One-step monotonicity of the multiply phase in the 64-bit fraction. -/
theorem expLoop_succ_ge (f : Nat) (hf : f + 1 < 2 ^ 64) :
    expLoop f ≤ expLoop (f + 1) := by
  obtain ⟨j, q, hrep, hj2⟩ := trailing_ones_decomp f
  have hjL : j < 64 := by
    by_contra hc
    push_neg at hc
    have h64 : (2 : Nat) ^ 64 ≤ 2 ^ j := Nat.pow_le_pow_right (by norm_num) hc
    omega
  have hone : (1 : Nat) ≤ 2 ^ j := Nat.one_le_two_pow
  have hrep2 : f + 1 = q * 2 ^ (j + 1) + 2 ^ j := by omega
  obtain ⟨H, hEqn, hEqn1⟩ := applied_decomp expMask 64 j q hjL
  have e1 : expApplied f = ((List.range j).map expMask ++ H).reverse := by
    rw [expApplied, hrep, List.filterMap_reverse, hEqn]
  have e2 : expApplied (f + 1) = (expMask j :: H).reverse := by
    rw [expApplied, hrep2, List.filterMap_reverse, hEqn1]
  set T := (List.range j).map expMask with hT
  set w := H.length with hw
  set B := T.prod with hB
  set A := H.prod with hA
  have hTlen : T.length = j := by simp [hT]
  have hlenf : (expApplied f).length = j + w := by
    rw [e1, List.length_reverse, List.length_append, hTlen]
  have hprodf : (expApplied f).prod = B * A := by
    rw [e1, List.prod_reverse, List.prod_append]
  have hlenf1 : (expApplied (f + 1)).length = w + 1 := by
    rw [e2, List.length_reverse, List.length_cons]
  have hprodf1 : (expApplied (f + 1)).prod = expMask j * A := by
    rw [e2, List.prod_reverse, List.prod_cons]
  have hw64 : w + 1 ≤ 64 := by
    have := expApplied_length (f + 1)
    omega
  have hHmem : ∀ x ∈ H, 2 ^ 128 ≤ x := by
    intro x hx
    refine expApplied_ge f x ?_
    rw [e1, List.mem_reverse]
    exact List.mem_append_right _ hx
  have hTmem : ∀ x ∈ T, 2 ^ 128 ≤ x := by
    intro x hx
    rw [hT] at hx
    obtain ⟨b, hb, rfl⟩ := List.mem_map.mp hx
    exact expMask_ge_ball b (by
      have := List.mem_range.mp hb
      omega)
  have u4 : ((2 : Nat) ^ 128) ^ w ≤ A := by
    have h := pow_le_prod_of_forall_le hHmem
    rw [← hw] at h
    exact h
  have u5 : ((2 : Nat) ^ 128) ^ j ≤ B := by
    have h := pow_le_prod_of_forall_le hTmem
    rw [hTlen] at h
    exact h
  have u1 : expLoop f * ((2 ^ 128) ^ j * (2 ^ 128) ^ w) ≤ 2 ^ 127 * (B * A) := by
    have h := msFold_upper (expApplied f) (2 ^ 127)
    rw [← expLoop_eq_msFold, hlenf, hprodf] at h
    have e3 : (2 : Nat) ^ (128 * (j + w)) = (2 ^ 128) ^ j * (2 ^ 128) ^ w := by
      rw [pow_mul, pow_add]
    rw [e3] at h
    exact h
  have u2 : 2 ^ 127 * (expMask j * A)
      ≤ (expLoop (f + 1) + 2 * (w + 1)) * ((2 ^ 128) ^ w * 2 ^ 128) := by
    have hs : ∀ s : List Nat, s.IsSuffix (expApplied (f + 1)) →
        s.prod ≤ 2 * 2 ^ (128 * s.length) := by
      intro s hsuf
      have h := expApplied_sub_prod_bound (f + 1) hsuf.sublist
      rw [pow_mul]
      omega
    have h := msFold_lower_big (expApplied (f + 1)) hs (2 ^ 127)
    rw [← expLoop_eq_msFold, hlenf1, hprodf1] at h
    have e3 : (2 : Nat) ^ (128 * (w + 1)) = (2 ^ 128) ^ w * 2 ^ 128 := by
      rw [pow_mul, pow_succ]
    rw [e3] at h
    exact h
  have u3 : B * 2 ^ 128 * 2 ^ 66 + B * 2 ^ 128 ≤ expMask j * (2 ^ 128) ^ j * 2 ^ 66 := by
    have h := exp_step_margin j hjL
    rw [← hT] at h
    exact h
  set F0 := expLoop f with hF0
  set F1 := expLoop (f + 1) with hF1
  set P := (2 : Nat) ^ 128 with hP
  set L := (2 : Nat) ^ 66 with hL
  set Pj := ((2 : Nat) ^ 128) ^ j with hPj
  set Pw := ((2 : Nat) ^ 128) ^ w with hPw
  set Mj := expMask j with hMj
  have h127 : (2 : Nat) ^ 127 = 2 ^ 61 * L := by rw [hL]; norm_num
  have main : (F0 + 2 ^ 61) * (Pj * Pw * P * L)
      ≤ (F1 + 2 * (w + 1)) * (Pj * Pw * P * L) := by
    calc (F0 + 2 ^ 61) * (Pj * Pw * P * L)
        = F0 * (Pj * Pw) * (P * L) + 2 ^ 61 * L * (Pj * Pw * P) := by ring
      _ = F0 * (Pj * Pw) * (P * L) + 2 ^ 127 * (Pj * Pw * P) := by
          rw [h127]
          try ring
      _ ≤ 2 ^ 127 * (B * A) * (P * L) + 2 ^ 127 * (B * A) * P := by
          refine Nat.add_le_add (Nat.mul_le_mul_right _ u1) ?_
          calc 2 ^ 127 * (Pj * Pw * P)
              = 2 ^ 127 * (Pj * Pw) * P := by ring
            _ ≤ 2 ^ 127 * (B * A) * P := by
                refine Nat.mul_le_mul_right _ (Nat.mul_le_mul_left _ ?_)
                exact Nat.mul_le_mul u5 u4
      _ = (B * P * L + B * P) * (2 ^ 127 * A) := by ring
      _ ≤ Mj * Pj * L * (2 ^ 127 * A) := Nat.mul_le_mul_right _ u3
      _ = 2 ^ 127 * (Mj * A) * (Pj * L) := by ring
      _ ≤ (F1 + 2 * (w + 1)) * (Pw * P) * (Pj * L) :=
          Nat.mul_le_mul_right _ u2
      _ = (F1 + 2 * (w + 1)) * (Pj * Pw * P * L) := by ring
  have hfin : F0 + 2 ^ 61 ≤ F1 + 2 * (w + 1) := by
    refine Nat.le_of_mul_le_mul_right main ?_
    rw [hPj, hPw, hP, hL]
    positivity
  have : 2 * (w + 1) ≤ 128 := by omega
  omega

theorem shift_rollover_le {v s : Nat} (hv : v < 2 ^ 128) (hs1 : 1 ≤ s)
    (hs2 : s ≤ 128) : v / 2 ^ s ≤ 2 ^ 127 / 2 ^ (s - 1) := by
  have hd : (2 : Nat) ^ 127 / 2 ^ (s - 1) = 2 ^ (128 - s) := by
    rw [Nat.pow_div (by omega) (by norm_num)]
    congr 1
    omega
  rw [hd]
  have hlt : v / 2 ^ s < 2 ^ (128 - s) := by
    rw [Nat.div_lt_iff_lt_mul (by positivity)]
    calc v < 2 ^ 128 := hv
      _ = 2 ^ (128 - s) * 2 ^ s := by
          rw [← pow_add]
          congr 1
          omega
  omega

/-- One-step monotonicity of the full `exp2` value in the `i128` exponent. -/
theorem exp2Val_succ_ge (x : Int) (hx : x + 1 < 0x400000000000000000) :
    exp2Val x ≤ exp2Val (x + 1) := by
  by_cases h0 : x < -0x400000000000000000
  · rw [exp2Val, if_pos h0]
    exact Nat.zero_le _
  · push_neg at h0
    have h64 : (2 : Int) ^ 64 = 18446744073709551616 := by norm_num
    rw [exp2Val, if_neg (by omega), exp2Val, if_neg (by omega)]
    by_cases hfrac : x % 2 ^ 64 = 2 ^ 64 - 1
    · -- crossing an integer-part boundary
      have hmod : (x + 1) % 2 ^ 64 = 0 := by
        rw [h64] at hfrac ⊢
        omega
      have hdiv : (x + 1) / 2 ^ 64 = x / 2 ^ 64 + 1 := by
        rw [h64] at hfrac ⊢
        omega
      have hqlo : -64 ≤ x / 2 ^ 64 := by
        rw [h64]
        omega
      have hqhi : x / 2 ^ 64 ≤ 62 := by
        rw [h64] at hfrac ⊢
        omega
      rw [hmod, hdiv, hfrac]
      have hto : ((2 : Int) ^ 64 - 1).toNat = 2 ^ 64 - 1 := by
        rw [h64]
        decide
      rw [hto]
      show expLoop (2 ^ 64 - 1) / 2 ^ (63 - x / 2 ^ 64).toNat
          ≤ expLoop (0 : Int).toNat / 2 ^ (63 - (x / 2 ^ 64 + 1)).toNat
      have h0to : ((0 : Int)).toNat = 0 := rfl
      rw [h0to, expLoop_zero]
      have hs1 : 1 ≤ ((63 : Int) - x / 2 ^ 64).toNat := by omega
      have hs2 : ((63 : Int) - x / 2 ^ 64).toNat ≤ 128 := by omega
      have hs3 : ((63 : Int) - (x / 2 ^ 64 + 1)).toNat
          = ((63 : Int) - x / 2 ^ 64).toNat - 1 := by omega
      rw [hs3]
      exact shift_rollover_le (expLoop_lt _) hs1 hs2
    · -- same integer part
      have hmod : (x + 1) % 2 ^ 64 = x % 2 ^ 64 + 1 := by
        rw [h64] at hfrac ⊢
        omega
      have hdiv : (x + 1) / 2 ^ 64 = x / 2 ^ 64 := by
        rw [h64] at hfrac ⊢
        omega
      rw [hmod, hdiv]
      have hto : (x % 2 ^ 64 + 1).toNat = (x % 2 ^ 64).toNat + 1 := by
        rw [h64] at *
        omega
      rw [hto]
      refine Nat.div_le_div_right (expLoop_succ_ge _ ?_)
      have hn64 : (2 : Nat) ^ 64 = 18446744073709551616 := by norm_num
      rw [hn64]
      rw [h64] at hfrac ⊢
      omega

/-- Monotonicity of the `exp2` value over its whole domain. -/
theorem exp2Val_mono {a b : Int} (hab : a ≤ b) (hb : b < 0x400000000000000000) :
    exp2Val a ≤ exp2Val b := by
  have H : ∀ n, a ≤ n → n < 0x400000000000000000 → exp2Val a ≤ exp2Val n := by
    intro n hn
    refine @Int.le_induction
      (fun n => n < 0x400000000000000000 → exp2Val a ≤ exp2Val n) a ?_ ?_ n hn
    · intro _
      exact le_refl _
    · intro k hk ih hlt
      exact le_trans (ih (by omega)) (exp2Val_succ_ge k hlt)
  exact H b hab hb

theorem exp2_domain_of_some {x : Int} {v : Nat} (h : exp2 x = some v) :
    x < 0x400000000000000000 := by
  by_contra hc
  push_neg at hc
  rw [exp2, if_pos hc] at h
  exact Option.noConfusion h

/-- C8: `exp2` is monotonically increasing on the domain where it returns
without aborting. -/
theorem c8_exp2_monotone (a b : Int) (va vb : Nat) (hab : a < b)
    (hva : exp2 a = some va) (hvb : exp2 b = some vb) : va ≤ vb := by
  have hda := exp2_domain_of_some hva
  have hdb := exp2_domain_of_some hvb
  rw [exp2_eq_some hda] at hva
  rw [exp2_eq_some hdb] at hvb
  obtain rfl := Option.some.inj hva
  obtain rfl := Option.some.inj hvb
  exact exp2Val_mono (le_of_lt hab) hdb

set_option maxRecDepth 4000 in
/-- C8 witness at the concrete exponents `0` and `2^64` (the Q64.64 values
`0.0` and `1.0`). -/
theorem c8_exp2_monotone_witness :
    exp2 0 = some (2 ^ 64) ∧ exp2 18446744073709551616 = some (2 ^ 65) ∧
      (2 ^ 64 : Nat) ≤ 2 ^ 65 := by
  refine ⟨by decide, by decide, ?_⟩
  exact c8_exp2_monotone 0 18446744073709551616 (2 ^ 64) (2 ^ 65)
    (by norm_num) (by decide) (by decide)

set_option maxRecDepth 4000 in
/-- C4 counterexample: at `x = 2^70`, which lies strictly between `-2^74` and
`2^74`, the claim says `exp2` returns normally, but the code aborts (the
`assert!` threshold is `0x400000000000000000 = 2^70`, not `2^74`). -/
theorem c4_counterexample :
    exp2 ((2 : Int) ^ 70) = none ∧
      -(2 : Int) ^ 74 < (2 : Int) ^ 70 ∧ (2 : Int) ^ 70 < (2 : Int) ^ 74 := by
  refine ⟨?_, by norm_num, by norm_num⟩
  rw [exp2, if_pos (by norm_num)]

/-- C4 (amended): `exp2` aborts exactly for `x ≥ 2^70`; it returns exactly
`0` for `x < -2^70`; and for `-2^70 ≤ x < 2^70` it returns normally with a
positive value. -/
theorem c4_exp2_domain_amended (x : Int) (hlo : -(2 : Int) ^ 127 ≤ x)
    (hhi : x < (2 : Int) ^ 127) :
    (0x400000000000000000 ≤ x → exp2 x = none) ∧
      (x < -0x400000000000000000 → exp2 x = some 0) ∧
      (-0x400000000000000000 ≤ x → x < 0x400000000000000000 →
        ∃ v, exp2 x = some v ∧ 0 < v) := by
  refine ⟨fun h => by rw [exp2, if_pos h],
    fun h => by rw [exp2, if_neg (by omega), if_pos h],
    fun hlo2 hhi2 => ⟨exp2Val x, exp2_eq_some hhi2, ?_⟩⟩
  rw [exp2Val, if_neg (by omega)]
  have h64 : (2 : Int) ^ 64 = 18446744073709551616 := by norm_num
  have hs : ((63 : Int) - x / 2 ^ 64).toNat ≤ 127 := by
    rw [h64]
    omega
  refine Nat.div_pos ?_ (by positivity)
  calc (2 : Nat) ^ ((63 : Int) - x / 2 ^ 64).toNat
      ≤ 2 ^ 127 := Nat.pow_le_pow_right (by norm_num) hs
    _ ≤ expLoop (x % 2 ^ 64).toNat := expLoop_ge _

/-- C4 witness: at `x = 0` the amended domain statement gives a normal,
positive return. -/
theorem c4_exp2_domain_witness : ∃ v, exp2 0 = some v ∧ 0 < v :=
  (c4_exp2_domain_amended 0 (by norm_num) (by norm_num)).2.2
    (by norm_num) (by norm_num)

/-! ## TWAMM price evolution (`src/math/twamm/sqrt_ratio.rs`) -/

def TWO_POW_64 : Nat := 2 ^ 64

/-- Modelled from the spec: `muldiv(a, b, d, round_up)` -- `src/math/muldiv.rs`
is not among the sources. Spec section 6: "computes `a*b/d` without
intermediate overflow, rounding per the flag; returns none on division by
zero or result overflow"; section 2: "fails when `d == 0` or the true
quotient does not fit the output width". -/
def muldiv (a b d : Nat) (round_up : Bool) : Option Nat :=
  if d = 0 then none
  else
    let q := if round_up then (a * b + (d - 1)) / d else a * b / d
    if q < 2 ^ 256 then some q else none

/-- The value computed by `compute_sqrt_sale_ratio` when it does not panic.
The `<< 16` in the top band truncates modulo `2^256` (`sale_ratio` can occupy
up to 256 bits); in the other bands the shifted value provably fits, and
`sale_rate_token1 << 128` fits because the input is a `u128`. -/
def sqrt_sale_ratio_val (sale_rate_token0 sale_rate_token1 : Nat) : Nat :=
  let sale_ratio := sale_rate_token1 * 2 ^ 128 / sale_rate_token0
  if 2 ^ 192 ≤ sale_ratio then Nat.sqrt (sale_ratio * 2 ^ 16 % 2 ^ 256) * 2 ^ 56
  else if 2 ^ 128 ≤ sale_ratio then Nat.sqrt (sale_ratio * 2 ^ 64) * 2 ^ 32
  else Nat.sqrt (sale_ratio * 2 ^ 128)

/-- `compute_sqrt_sale_ratio`; the `U256` division panics when
`sale_rate_token0 == 0`. -/
def compute_sqrt_sale_ratio (sale_rate_token0 sale_rate_token1 : Nat) : Option Nat :=
  if sale_rate_token0 = 0 then none
  else some (sqrt_sale_ratio_val sale_rate_token0 sale_rate_token1)

/-- `compute_c`; parameter names follow the source (note the caller passes
its arguments swapped relative to these names). The `U256` addition
`sqrt_sale_ratio + sqrt_ratio` panics on overflow and the `muldiv` result is
`unwrap`ped, so both are modelled in `Option`. -/
def compute_c (sqrt_ratio sqrt_sale_ratio : Nat) : Option (Nat × Bool) :=
  if sqrt_ratio ≤ sqrt_sale_ratio then
    if sqrt_sale_ratio + sqrt_ratio < 2 ^ 256 then
      (muldiv (sqrt_sale_ratio - sqrt_ratio) (2 ^ 128)
          (sqrt_sale_ratio + sqrt_ratio) false).map fun c => (c, false)
    else none
  else
    if sqrt_sale_ratio + sqrt_ratio < 2 ^ 256 then
      (muldiv (sqrt_ratio - sqrt_sale_ratio) (2 ^ 128)
          (sqrt_sale_ratio + sqrt_ratio) false).map fun c => (c, true)
    else none

/-- `calculate_next_sqrt_ratio`. The two arms of the `if negative` are kept
exactly as in the source, where they are textually identical. The `u128`
inputs keep `sale_rate_token1 * sale_rate_token0`, the `sale_rate`
computation and `exponent` far below `2^256`, so those `U256` operations
cannot overflow; `exp2` is called only after the `exponent < 2^70` check, and
`exponent.low_u128() as i128` is then value-preserving, modelled by
`(exponent % 2^128 : Nat) : Int`. -/
def calculate_next_sqrt_ratio (sqrt_ratio liquidity : Nat)
    (sale_rate_token0 sale_rate_token1 : Nat) (time_elapsed fee : Nat) :
    Option Nat :=
  match compute_sqrt_sale_ratio sale_rate_token0 sale_rate_token1 with
  | none => none
  | some sqrt_sale_ratio =>
    if liquidity = 0 then some sqrt_sale_ratio
    else
      match compute_c sqrt_sale_ratio sqrt_ratio with
      | none => none
      | some (c, negative) =>
        if c = 0 ∨ liquidity = 0 then some sqrt_sale_ratio
        else
          let sale_rate := Nat.sqrt (sale_rate_token1 * sale_rate_token0)
              * (TWO_POW_64 - fee) / TWO_POW_64
          let round_up := decide (sqrt_sale_ratio < sqrt_ratio)
          let exponent := sale_rate * time_elapsed * 12392656037 / liquidity
          if 0x400000000000000000 ≤ exponent then some sqrt_sale_ratio
          else
            match exp2 ((exponent % 2 ^ 128 : Nat) : Int) with
            | none => none
            | some e128 =>
              let e_pow_exponent := e128 * 2 ^ 64
              let sqrt_ratio_next :=
                if negative then
                  (muldiv sqrt_sale_ratio (e_pow_exponent + c)
                    (if c ≤ e_pow_exponent then e_pow_exponent - c
                      else c - e_pow_exponent) round_up).getD sqrt_sale_ratio
                else
                  (muldiv sqrt_sale_ratio (e_pow_exponent + c)
                    (if c ≤ e_pow_exponent then e_pow_exponent - c
                      else c - e_pow_exponent) round_up).getD sqrt_sale_ratio
              some (if round_up then max sqrt_ratio_next sqrt_sale_ratio
                else min sqrt_ratio_next sqrt_sale_ratio)

theorem sqrt_eq_exact {x y : Nat} (h1 : y * y ≤ x) (h2 : x < (y + 1) * (y + 1)) :
    Nat.sqrt x = y :=
  le_antisymm (Nat.lt_succ_iff.mp (Nat.sqrt_lt.mpr h2)) (Nat.le_sqrt.mpr h1)

/-- The sale-ratio square root is always below `2^184`. -/
theorem sqrt_sale_ratio_val_lt (srt0 srt1 : Nat) :
    sqrt_sale_ratio_val srt0 srt1 < 2 ^ 184 := by
  rw [sqrt_sale_ratio_val]
  set ratio := srt1 * 2 ^ 128 / srt0 with hratio
  split_ifs with h1 h2
  · have hs : Nat.sqrt (ratio * 2 ^ 16 % 2 ^ 256) < 2 ^ 128 := by
      rw [Nat.sqrt_lt]
      calc ratio * 2 ^ 16 % 2 ^ 256 < 2 ^ 256 := Nat.mod_lt _ (by positivity)
        _ = 2 ^ 128 * 2 ^ 128 := by norm_num
    calc Nat.sqrt (ratio * 2 ^ 16 % 2 ^ 256) * 2 ^ 56
        ≤ (2 ^ 128 - 1) * 2 ^ 56 := Nat.mul_le_mul_right _ (by omega)
      _ < 2 ^ 184 := by norm_num
  · have hs : Nat.sqrt (ratio * 2 ^ 64) < 2 ^ 128 := by
      rw [Nat.sqrt_lt]
      calc ratio * 2 ^ 64 < 2 ^ 192 * 2 ^ 64 :=
            (Nat.mul_lt_mul_right (by positivity)).mpr (by omega)
        _ = 2 ^ 128 * 2 ^ 128 := by norm_num
    calc Nat.sqrt (ratio * 2 ^ 64) * 2 ^ 32
        ≤ (2 ^ 128 - 1) * 2 ^ 32 := Nat.mul_le_mul_right _ (by omega)
      _ < 2 ^ 184 := by norm_num
  · have hs : Nat.sqrt (ratio * 2 ^ 128) < 2 ^ 128 := by
      rw [Nat.sqrt_lt]
      exact (Nat.mul_lt_mul_right (by positivity)).mpr (by omega)
    have h3 : (2 : Nat) ^ 128 < 2 ^ 184 := by norm_num
    omega

theorem muldiv_le_some {a b : Nat} (hab : a ≤ b) (hb : b ≠ 0) :
    muldiv a (2 ^ 128) b false = some (a * 2 ^ 128 / b) := by
  rw [muldiv, if_neg hb]
  have hq : a * 2 ^ 128 / b ≤ 2 ^ 128 := by
    calc a * 2 ^ 128 / b ≤ b * 2 ^ 128 / b :=
          Nat.div_le_div_right (Nat.mul_le_mul_right _ hab)
      _ = 2 ^ 128 := Nat.mul_div_cancel_left _ (by omega)
  have hlt : a * 2 ^ 128 / b < 2 ^ 256 := by
    have : (2 : Nat) ^ 128 < 2 ^ 256 := by norm_num
    omega
  simp only [Bool.false_eq_true, if_false, if_pos hlt]

theorem compute_c_some {p q : Nat} (hsum : q + p < 2 ^ 256) (hne : q + p ≠ 0) :
    (compute_c p q).isSome := by
  rw [compute_c]
  split_ifs with hb
  · rw [muldiv_le_some (by omega) hne]
    rfl
  · rw [muldiv_le_some (by omega) hne]
    rfl

/-- C1 counterexample: with `sale_rate_token0 == 0` the very first `U256`
division of `compute_sqrt_sale_ratio` divides by zero, so the function
panics instead of returning a value. -/
theorem c1_counterexample :
    calculate_next_sqrt_ratio (2 ^ 128) 1 0 1 1 0 = none := by
  rw [calculate_next_sqrt_ratio, compute_sqrt_sale_ratio, if_pos rfl]

/-- C1 (amended): `calculate_next_sqrt_ratio` returns without panicking
provided `sale_rate_token0 > 0`, the current sqrt ratio is within the
`SqrtRatio` domain (below `2^192 > MAX_SQRT_RATIO`, which keeps the `U256`
addition in `compute_c` from overflowing), and the current price and the
computed equilibrium price are not both zero (which would make `compute_c`
divide by zero) unless liquidity is zero. -/
theorem c1_no_panic_amended (sqrt_ratio liquidity srt0 srt1 t fee : Nat)
    (h0 : srt0 ≠ 0) (hsr : sqrt_ratio < 2 ^ 192)
    (hnz : liquidity = 0 ∨ sqrt_ratio ≠ 0 ∨ sqrt_sale_ratio_val srt0 srt1 ≠ 0) :
    (calculate_next_sqrt_ratio sqrt_ratio liquidity srt0 srt1 t fee).isSome := by
  rw [calculate_next_sqrt_ratio, compute_sqrt_sale_ratio, if_neg h0]
  split
  · next heq => exact absurd heq (by simp)
  · next ssr heq =>
    obtain rfl := Option.some.inj heq
    set ssr := sqrt_sale_ratio_val srt0 srt1 with hssr
    by_cases hliq : liquidity = 0
    · rw [if_pos hliq]
      rfl
    · rw [if_neg hliq]
      have hsum : sqrt_ratio + ssr < 2 ^ 256 := by
        have h1 := sqrt_sale_ratio_val_lt srt0 srt1
        rw [← hssr] at h1
        have h2 : (2 : Nat) ^ 192 + 2 ^ 184 < 2 ^ 256 := by norm_num
        omega
      have hne : sqrt_ratio + ssr ≠ 0 := by
        rcases hnz with h | h | h
        · exact absurd h hliq
        · omega
        · omega
      have hc := compute_c_some hsum hne
      split
      · next heq2 =>
        rw [heq2] at hc
        exact absurd hc (by simp)
      · next c negative heq2 =>
        by_cases hc0 : c = 0 ∨ liquidity = 0
        · rw [if_pos hc0]
          rfl
        · rw [if_neg hc0]
          by_cases hbig : (0x400000000000000000 : Nat)
              ≤ Nat.sqrt (srt1 * srt0) * (TWO_POW_64 - fee) / TWO_POW_64
                * t * 12392656037 / liquidity
          · rw [if_pos hbig]
            rfl
          · rw [if_neg hbig]
            push_neg at hbig
            set exponent := Nat.sqrt (srt1 * srt0) * (TWO_POW_64 - fee) / TWO_POW_64
                * t * 12392656037 / liquidity with hexp
            have hmod : exponent % 2 ^ 128 = exponent :=
              Nat.mod_eq_of_lt (by omega)
            have hdom : ((exponent % 2 ^ 128 : Nat) : Int) < 0x400000000000000000 := by
              rw [hmod]
              exact_mod_cast hbig
            rw [exp2_eq_some hdom]
            rfl

/-- C1 witness: a fully in-domain call returns a value. -/
theorem c1_no_panic_witness :
    (calculate_next_sqrt_ratio (2 ^ 128) 1 1 1 0 0).isSome :=
  c1_no_panic_amended (2 ^ 128) 1 1 1 0 0 (by norm_num) (by norm_num)
    (Or.inr (Or.inl (by norm_num)))

set_option maxRecDepth 8000 in
/-- C2 (code bug): the two arms of `if negative` in
`calculate_next_sqrt_ratio` (sqrt_ratio.rs lines 83-99) are textually
identical, both computing `muldiv(sqrt_sale_ratio, e + c, |e - c|)`, so the
mirrored formula `sqrt_sale_ratio * (e - c) / (e + c)` the claim prescribes
for a price below equilibrium is never evaluated. Concretely: with
`sqrt_ratio = 2^128` below the equilibrium `sqrt_sale_ratio = 2^129`
(inputs `liquidity = 1`, `sale_rate_token0 = 1`, `sale_rate_token1 = 4`,
`time_elapsed = 0`, `fee = 0`, so `e = 2^128` and
`c = floor(2^256/(3*2^128))` with the `negative` flag set), the function
returns `2^129` while the claim's formula, evaluated by the same `muldiv`
with the claimed rounding `round_up = (2^128 > 2^129) = false`, yields
`2^128`, and the two differ. -/
theorem c2_below_equilibrium_divergence :
    calculate_next_sqrt_ratio (2 ^ 128) 1 1 4 0 0 = some (2 ^ 129) ∧
    compute_c (2 ^ 129) (2 ^ 128) =
      some (113427455640312821154458202477256070485, true) ∧
    muldiv (2 ^ 129) (2 ^ 128 - 113427455640312821154458202477256070485)
        (2 ^ 128 + 113427455640312821154458202477256070485) false =
      some (2 ^ 128) ∧
    (2 ^ 129 : Nat) ≠ 2 ^ 128 := by
  have hc : compute_c (2 ^ 129) (2 ^ 128) =
      some (113427455640312821154458202477256070485, true) := by decide
  have hmd : muldiv (2 ^ 129) (2 ^ 128 - 113427455640312821154458202477256070485)
      (2 ^ 128 + 113427455640312821154458202477256070485) false =
      some (2 ^ 128) := by decide
  refine ⟨?_, hc, hmd, by norm_num⟩
  have hssr : sqrt_sale_ratio_val 1 4 = 2 ^ 129 := by
    have h4 : (4 : Nat) * 2 ^ 128 / 1 = 2 ^ 130 := by norm_num
    have hsq : Nat.sqrt (2 ^ 130 * 2 ^ 64) = 2 ^ 97 :=
      sqrt_eq_exact (by norm_num) (by norm_num)
    rw [sqrt_sale_ratio_val]
    simp only [h4]
    rw [if_neg (by norm_num), if_pos (by norm_num), hsq]
    norm_num
  have hcs : compute_sqrt_sale_ratio 1 4 = some (2 ^ 129) := by
    rw [compute_sqrt_sale_ratio, if_neg (by norm_num), hssr]
  have hsq4 : Nat.sqrt (4 * 1) = 2 := sqrt_eq_exact (by norm_num) (by norm_num)
  rw [calculate_next_sqrt_ratio, hcs]
  simp only [ite_self, hc, hsq4]
  norm_num
  decide

/-- C3: wherever `calculate_next_sqrt_ratio` returns, the result never lies
strictly beyond the computed equilibrium `sqrt_sale_ratio` in the direction
the price moves: at least the equilibrium when the current price is above it,
at most the equilibrium when at or below it. -/
theorem c3_clamp (sqrt_ratio liquidity srt0 srt1 t fee v : Nat)
    (h : calculate_next_sqrt_ratio sqrt_ratio liquidity srt0 srt1 t fee = some v) :
    (sqrt_sale_ratio_val srt0 srt1 < sqrt_ratio → sqrt_sale_ratio_val srt0 srt1 ≤ v) ∧
      (sqrt_ratio ≤ sqrt_sale_ratio_val srt0 srt1 → v ≤ sqrt_sale_ratio_val srt0 srt1) := by
  by_cases h0 : srt0 = 0
  · rw [calculate_next_sqrt_ratio, compute_sqrt_sale_ratio, if_pos h0] at h
    exact absurd h (by simp)
  · rw [calculate_next_sqrt_ratio, compute_sqrt_sale_ratio, if_neg h0] at h
    split at h
    · next heq => exact absurd heq (by simp)
    · next ssr heq =>
      obtain rfl := Option.some.inj heq
      by_cases hliq : liquidity = 0
      · rw [if_pos hliq] at h
        obtain rfl := Option.some.inj h
        exact ⟨fun _ => le_refl _, fun _ => le_refl _⟩
      · rw [if_neg hliq] at h
        split at h
        · exact absurd h (by simp)
        · next c negative heq2 =>
          by_cases hc0 : c = 0 ∨ liquidity = 0
          · rw [if_pos hc0] at h
            obtain rfl := Option.some.inj h
            exact ⟨fun _ => le_refl _, fun _ => le_refl _⟩
          · rw [if_neg hc0] at h
            simp only [ite_self] at h
            split at h
            · obtain rfl := Option.some.inj h
              exact ⟨fun _ => le_refl _, fun _ => le_refl _⟩
            · split at h
              · exact absurd h (by simp)
              · next e128 heq3 =>
                obtain rfl := Option.some.inj h
                constructor
                · intro hlt
                  rw [if_pos (decide_eq_true hlt)]
                  exact le_max_right _ _
                · intro hle
                  have hd : decide (sqrt_sale_ratio_val srt0 srt1 < sqrt_ratio)
                      = false := decide_eq_false (by omega)
                  rw [if_neg (by rw [hd]; exact Bool.false_ne_true)]
                  exact min_le_right _ _

/-- C3 witness at a concrete input that returns (zero liquidity, zero
equilibrium price). -/
theorem c3_clamp_witness :
    (sqrt_sale_ratio_val 1 0 < 1 → sqrt_sale_ratio_val 1 0 ≤ 0) ∧
      ((1 : Nat) ≤ sqrt_sale_ratio_val 1 0 → (0 : Nat) ≤ sqrt_sale_ratio_val 1 0) := by
  refine c3_clamp 1 0 1 0 0 0 0 ?_
  rw [calculate_next_sqrt_ratio, compute_sqrt_sale_ratio, if_neg (by norm_num)]
  split
  · next heq => exact absurd heq (by simp)
  · next ssr heq =>
    obtain rfl := Option.some.inj heq
    rw [if_pos rfl]
    have hv : sqrt_sale_ratio_val 1 0 = 0 := by
      rw [sqrt_sale_ratio_val]
      norm_num [Nat.sqrt_zero]
    rw [hv]

/-- The tiered-shift integer square root described by claim C5, transcribed
from the claim text: shift by 16 and post-shift the root by 56 in the top
magnitude band, 64/32 in the middle band, the full 128 with no post-shift
otherwise. Stated separately so the code path can be compared against it. -/
def tiered_sqrt_sale_ratio_spec (sale_rate_token0 sale_rate_token1 : Nat) : Nat :=
  let ratio := sale_rate_token1 * 2 ^ 128 / sale_rate_token0
  if 2 ^ 192 ≤ ratio then Nat.sqrt (ratio * 2 ^ 16 % 2 ^ 256) * 2 ^ 56
  else if 2 ^ 128 ≤ ratio then Nat.sqrt (ratio * 2 ^ 64) * 2 ^ 32
  else Nat.sqrt (ratio * 2 ^ 128)

/-- C5: with zero liquidity (and a nonzero token0 sale rate, without which
the ratio division panics), `calculate_next_sqrt_ratio` returns exactly the
tiered-shift square root of `(sale_rate_token1 << 128) / sale_rate_token0`. -/
theorem c5_zero_liquidity (sqrt_ratio srt0 srt1 t fee : Nat) (h0 : srt0 ≠ 0) :
    calculate_next_sqrt_ratio sqrt_ratio 0 srt0 srt1 t fee
      = some (tiered_sqrt_sale_ratio_spec srt0 srt1) := by
  rw [calculate_next_sqrt_ratio, compute_sqrt_sale_ratio, if_neg h0]
  split
  · next heq => exact absurd heq (by simp)
  · next ssr heq =>
    obtain rfl := Option.some.inj heq
    rw [if_pos rfl]
    rfl

/-- C5 witness. -/
theorem c5_zero_liquidity_witness :
    calculate_next_sqrt_ratio 1 0 1 0 0 0
      = some (tiered_sqrt_sale_ratio_spec 1 0) :=
  c5_zero_liquidity 1 1 0 0 0 (by norm_num)

/-! ## Oracle pool quoting (`src/quoting/oracle_pool.rs`) -/

/-- Modelled from the spec: the shape of `QuoteParams` from
`src/quoting/types.rs`, which is not among the sources. The token amount is
kept abstract (`T`): `OraclePool::quote` only forwards it. -/
structure QuoteParams (T S M : Type) where
  token_amount : T
  sqrt_ratio_limit : Option Nat
  override_state : Option S
  meta : M

/-- Modelled from the spec: the shape of `Quote` from
`src/quoting/types.rs`; `calculated_amount`/`consumed_amount` are `i128` and
`fees_paid` is `u128` there, modelled as `Int`/`Nat`. -/
structure Quote (R S : Type) where
  calculated_amount : Int
  consumed_amount : Int
  execution_resources : R
  fees_paid : Nat
  is_price_increasing : Bool
  state_after : S

/-- `OraclePoolState`: the inner full-range pool state is kept abstract
(`FS`), `last_snapshot_time` is a `u64` timestamp. -/
structure OraclePoolState (FS : Type) where
  full_range_pool_state : FS
  last_snapshot_time : Nat

/-- `OraclePoolResources`: the inner resources are kept abstract (`FR`). -/
structure OraclePoolResources (FR : Type) where
  full_range_pool_resources : FR
  snapshots_written : Nat

/-- `OraclePool`: the inner `FullRangePool` (whose module is not among the
sources) is kept abstract. -/
structure OraclePool (FP : Type) where
  full_range_pool : FP
  last_snapshot_time : Nat

/-- `OraclePool::quote` (oracle_pool.rs lines 119-149), parametric in the
inner `FullRangePool::quote` implementation (`inner`); the `?` on the inner
call is the error match, and `map_or` on `override_state` is written as a
match. -/
def OraclePool.quote {T FS FR E FP : Type}
    (inner : FP → QuoteParams T FS Unit → Except E (Quote FR FS))
    (self : OraclePool FP)
    (params : QuoteParams T (OraclePoolState FS) Nat) :
    Except E (Quote (OraclePoolResources FR) (OraclePoolState FS)) :=
  match inner self.full_range_pool
      { token_amount := params.token_amount
        sqrt_ratio_limit := params.sqrt_ratio_limit
        override_state := params.override_state.map fun s => s.full_range_pool_state
        meta := () } with
  | Except.error e => Except.error e
  | Except.ok result =>
    Except.ok
      { calculated_amount := result.calculated_amount
        consumed_amount := result.consumed_amount
        execution_resources :=
          { full_range_pool_resources := result.execution_resources
            snapshots_written :=
              if (match params.override_state with
                  | some os => os.last_snapshot_time
                  | none => self.last_snapshot_time) ≠ params.meta then 1 else 0 }
        fees_paid := result.fees_paid
        is_price_increasing := result.is_price_increasing
        state_after :=
          { full_range_pool_state := result.state_after
            last_snapshot_time := params.meta } }

/-- C10: whenever the inner full-range quote succeeds, `OraclePool.quote`
succeeds and passes `calculated_amount`, `consumed_amount`, `fees_paid` and
`is_price_increasing` through unchanged, sets
`state_after.last_snapshot_time` to the block-timestamp meta, and reports
`snapshots_written = 1` exactly when the effective snapshot time (from
`override_state` when present, else the stored `last_snapshot_time`) differs
from the block timestamp. -/
theorem c10_oracle_quote_frame {T FS FR E FP : Type}
    (inner : FP → QuoteParams T FS Unit → Except E (Quote FR FS))
    (self : OraclePool FP) (params : QuoteParams T (OraclePoolState FS) Nat)
    (r : Quote FR FS)
    (hok : inner self.full_range_pool
      { token_amount := params.token_amount
        sqrt_ratio_limit := params.sqrt_ratio_limit
        override_state := params.override_state.map fun s => s.full_range_pool_state
        meta := () } = Except.ok r) :
    ∃ q, OraclePool.quote inner self params = Except.ok q ∧
      q.calculated_amount = r.calculated_amount ∧
      q.consumed_amount = r.consumed_amount ∧
      q.fees_paid = r.fees_paid ∧
      q.is_price_increasing = r.is_price_increasing ∧
      q.state_after.last_snapshot_time = params.meta ∧
      q.execution_resources.snapshots_written =
        (if (match params.override_state with
            | some os => os.last_snapshot_time
            | none => self.last_snapshot_time) ≠ params.meta then 1 else 0) := by
  simp only [OraclePool.quote, hok]
  exact ⟨_, rfl, rfl, rfl, rfl, rfl, rfl, rfl⟩

/-- C10 witness: a concrete oracle pool whose stored snapshot time `5`
differs from the block time `7`, with a trivial inner quote. -/
theorem c10_oracle_quote_frame_witness :
    ∃ q, OraclePool.quote
        (fun _ _ => Except.ok ⟨0, 0, (), 0, false, ()⟩ :
          Unit → QuoteParams Unit Unit Unit → Except Unit (Quote Unit Unit))
        (⟨(), 5⟩ : OraclePool Unit)
        (⟨(), none, none, 7⟩ : QuoteParams Unit (OraclePoolState Unit) Nat)
        = Except.ok q ∧
      q.calculated_amount = 0 ∧
      q.consumed_amount = 0 ∧
      q.fees_paid = 0 ∧
      q.is_price_increasing = false ∧
      q.state_after.last_snapshot_time = 7 ∧
      q.execution_resources.snapshots_written =
        (if (5 : Nat) ≠ 7 then 1 else 0) :=
  c10_oracle_quote_frame
    (fun _ _ => Except.ok ⟨0, 0, (), 0, false, ()⟩ :
      Unit → QuoteParams Unit Unit Unit → Except Unit (Quote Unit Unit))
    (⟨(), 5⟩ : OraclePool Unit)
    (⟨(), none, none, 7⟩ : QuoteParams Unit (OraclePoolState Unit) Nat)
    (⟨0, 0, (), 0, false, ()⟩ : Quote Unit Unit) rfl

end EkuboModel
